import Mathlib

/-!
Verification of the preparation engine in `project/prepare.py`.

The repository's core is `project/prepare.py`: a topological-sort-driven
scheduler that expands a set of environment-variable requirements, orders
them so that dependencies come first, partitions them into resumable
stages, executes each stage (configure + provide + verify), and commits
environment changes back to the caller only on overall success; plus a
teardown driver (`unprepare`) that runs recorded shutdown commands.

This file is a shallow embedding of that module.  Python dictionaries
(`os.environ`, local state) become association lists with unique keys,
side effects (printing, mutation of the working environment, subprocess
calls) become explicit state threading, exceptions become `Option` /
dedicated outcome constructors, and the possibly non-terminating
recursion of the transitive requirement expander gets an explicit fuel
parameter (`fuel = 0` standing for a run that never returned).

Collaborators that are not part of the repository sources (the provider
plugins, the requirement registry, the toposort helper, the UI
front-ends, the local-state file) are modelled from the specification;
each such definition carries a note in its doc comment.
-/

/-! ## Environments (Python `dict` of environment variables) -/

/-- A Python `dict` mapping environment-variable names to values,
modelled as an association list with (invariantly) unique keys; the
first binding for a key is its value. -/
abbrev Environ := List (String × String)

/-- `environ[k]` lookup returning `none` when the key is absent. -/
def envGet : Environ → String → Option String
  | [], _ => none
  | (k0, v0) :: rest, k => if k0 = k then some v0 else envGet rest k

/-- `k in environ` membership test. -/
def envMem (e : Environ) (k : String) : Bool :=
  (envGet e k).isSome

/-- `environ[k] = v` assignment: replaces the binding of an existing key
in place (Python dicts keep the key's insertion position) or appends a
new binding. -/
def envSet : Environ → String → String → Environ
  | [], k, v => [(k, v)]
  | (k0, v0) :: rest, k, v =>
    if k0 = k then (k0, v) :: rest else (k0, v0) :: envSet rest k v

/-! ## Local state (the run-state store collaborator) -/

/-- One service's persisted run state.  Modelled from the spec: the
engine reads and writes run state only through the store collaborator
and only reasons about the reserved `shutdown_commands` key, so the
model keeps exactly that key (`none` models a dict without the key; the
cleared state `dict()` is `⟨none⟩`). -/
structure ServiceState where
  shutdown_commands : Option (List (List String))
deriving DecidableEq

/-- Modelled from the spec: the run-state store (`LocalStateFile`, not
under `src/`) is a persisted mapping from service names to run states;
as with `Environ` it is an association list with unique keys. -/
abbrev LocalState := List (String × ServiceState)

/-- `get_service_run_state`-style lookup. -/
def lookupService : LocalState → String → Option ServiceState
  | [], _ => none
  | (n0, s0) :: rest, n => if n0 = n then some s0 else lookupService rest n

/-- `local_state.set_service_run_state(name, state)`. -/
def setServiceRunState : LocalState → String → ServiceState → LocalState
  | [], n, s => [(n, s)]
  | (n0, s0) :: rest, n, s =>
    if n0 = n then (n0, s) :: rest else (n0, s0) :: setServiceRunState rest n s

/-! ## Requirements, providers, projects -/

/-- Output events: a chronological record of everything printed, tagged
with the channel (`out` = `sys.stdout`, `err` = `sys.stderr`). -/
inductive OutEvent where
  | out (s : String)
  | err (s : String)
deriving DecidableEq

/-- Modelled from the spec: a requirement (plugin class, not under
`src/`) identifies one environment variable, carries a human-readable
title, and owns the satisfaction predicate
`why_not_provided(environ) -> reason | None`. -/
structure Requirement where
  env_var : String
  title : String
  why_not_provided : Environ → Option String

/-- A provider configuration, as returned by `read_config` (an opaque
collaborator value; the engine only passes it through). -/
abbrev Config := List (String × String)

/-- The observable result of one `provider.provide(requirement, context)`
call: the working environment after any mutations the provider made
through the context, plus the `logs` and `errors` it accumulated. -/
structure ProvideResult where
  environ : Environ
  logs : List String
  errors : List String

/-- Modelled from the spec: a provider (plugin class, not under `src/`)
exposes the two missing-variable queries, `read_config` and the
side-effecting `provide`. -/
structure Provider where
  missing_env_vars_to_configure : Requirement → Environ → LocalState → List String
  missing_env_vars_to_provide : Requirement → Environ → LocalState → List String
  read_config : Environ → LocalState → Requirement → Config
  provide : Requirement → Environ → LocalState → Config → ProvideResult

/-- The `(requirement, providers)` tuples the scheduler works on. -/
abbrev Pair := Requirement × List Provider

/-- Modelled from the spec: the registry collaborator.
`find_by_env_var` synthesizes a requirement for a variable name (`none`
when the registry cannot — the unresolvable case of spec section 4.2),
and `find_providers` resolves a requirement's candidate providers
(`requirement.find_providers(provider_registry)` in the source). -/
structure RequirementRegistry where
  find_by_env_var : String → Option Requirement

/-- The project collaborator: a directory path, the declared
requirements, the registry, and provider resolution. -/
structure Project where
  directory_path : String
  requirements : List Requirement
  requirement_registry : RequirementRegistry
  find_providers : Requirement → List Provider

/-- The strategy function `missing_vars_getter(provider, requirement,
environ, local_state)` that parameterizes the sort. -/
abbrev Getter := Provider → Requirement → Environ → LocalState → List String

/-- `get_missing_to_configure` from `_partition_first_group_to_configure`. -/
def getMissingToConfigure : Getter :=
  fun provider requirement environ local_state =>
    provider.missing_env_vars_to_configure requirement environ local_state

/-- `get_missing_to_provide` from the provide stage. -/
def getMissingToProvide : Getter :=
  fun provider requirement environ local_state =>
    provider.missing_env_vars_to_provide requirement environ local_state

/-! ## Dependency graph builder and topological sort

`_sort_requirements_and_providers` (prepare.py lines 102-124) computes,
for each pair, a node key (`requirement.env_var`) and dependency keys
(union over the pair's providers of the strategy function's result),
ignores any dependency key already present in the environment
(`can_ignore_dependency_on_key`), and delegates to
`toposort_from_dependency_info`. -/

/-- `get_node_key(requirement_and_providers)`. -/
def nodeKey (p : Pair) : String := p.1.env_var

/-- The keys of a pair list. -/
def keysOf (l : List Pair) : List String := l.map nodeKey

/-- The position of the first occurrence of a key in a key list (the
list's length when absent); used to state ordering properties of the
topological sort. -/
def keyIdx (k : String) : List String → Nat
  | [] => 0
  | k0 :: ks => if k0 = k then 0 else keyIdx k ks + 1

/-- `get_dependency_keys(requirement_and_providers)`: the union over the
pair's providers of the strategy function's missing variables (the
source collects them into a set; a list with membership-based use is
equivalent). -/
def depKeys (getter : Getter) (environ : Environ) (local_state : LocalState)
    (p : Pair) : List String :=
  p.2.flatMap (fun provider => getter provider p.1 environ local_state)

/-- A node is ready to be emitted when each of its dependency keys is
either already present in the environment (`can_ignore_dependency_on_key`)
or is not the key of any remaining node. -/
def isReady (getter : Getter) (environ : Environ) (local_state : LocalState)
    (ks : List String) (p : Pair) : Bool :=
  (depKeys getter environ local_state p).all
    (fun d => envMem environ d || !(ks.contains d))

/-- Remove the first element satisfying `check`, returning it and the
remainder in original order; `none` if no element satisfies `check`. -/
def extractFirst (check : Pair → Bool) : List Pair → Option (Pair × List Pair)
  | [] => none
  | p :: rest =>
    if check p then some (p, rest)
    else
      match extractFirst check rest with
      | none => none
      | some (q, rest2) => some (q, p :: rest2)

/-- Modelled from the spec: `toposort_from_dependency_info` lives in
`project/internal/toposort.py`, which is not under `src/`.  Spec section
4.1: produce the pairs in dependency order — for every edge A→B, B
precedes A — breaking ties by stable input order (repeatedly emit the
first remaining node with no unsatisfied dependencies), and treat a
subgraph in which no node is ready (a cycle) as a fatal condition
(`none`, the exception path).  The fuel argument is the list length, so
fuel can only run out when no progress is possible. -/
def toposortGo (getter : Getter) (environ : Environ) (local_state : LocalState) :
    Nat → List Pair → Option (List Pair)
  | _, [] => some []
  | 0, _ :: _ => none
  | fuel + 1, x :: l0 =>
    match extractFirst (isReady getter environ local_state (keysOf (x :: l0)))
        (x :: l0) with
    | none => none
    | some (p, rest) =>
      (toposortGo getter environ local_state fuel rest).map (fun out => p :: out)

/-- Modelled from the spec: entry point of the toposort helper. -/
def toposort_from_dependency_info (getter : Getter) (environ : Environ)
    (local_state : LocalState) (pairs : List Pair) : Option (List Pair) :=
  toposortGo getter environ local_state pairs.length pairs

/-- `_sort_requirements_and_providers(environ, local_state,
requirements_and_providers, missing_vars_getter)`: `none` models the
exception thrown on a dependency cycle. -/
def _sort_requirements_and_providers (environ : Environ)
    (local_state : LocalState) (requirements_and_providers : List Pair)
    (missing_vars_getter : Getter) : Option (List Pair) :=
  toposort_from_dependency_info missing_vars_getter environ local_state
    requirements_and_providers

/-! ## Stage partitioner -/

/-- The walk's stopping test in `_partition_first_group_to_configure`
(lines 206-209): some provider of the pair still reports missing
configure-time variables. -/
def pairHasMissingToConfigure (environ : Environ) (local_state : LocalState)
    (p : Pair) : Bool :=
  p.2.any (fun provider =>
    !(provider.missing_env_vars_to_configure p.1 environ local_state).isEmpty)

/-- The pop-until-missing loop of `_partition_first_group_to_configure`
(lines 199-218): walk the sorted list; pairs with no missing
configure-time variables go to `head`; the first pair with missing
variables stops the walk and, together with everything not yet walked,
forms `tail` (the source expresses the same walk with
reverse/pop/break/extend for efficiency). -/
def partitionGo (hasMissing : Pair → Bool) : List Pair → List Pair × List Pair
  | [] => ([], [])
  | p :: rest =>
    if hasMissing p then ([], p :: rest)
    else
      let (h, t) := partitionGo hasMissing rest
      (p :: h, t)

/-- `_partition_first_group_to_configure(environ, local_state,
requirements_and_providers)` (lines 187-220); `none` models the
toposort cycle exception. -/
def _partition_first_group_to_configure (environ : Environ)
    (local_state : LocalState) (requirements_and_providers : List Pair) :
    Option (List Pair × List Pair) :=
  match _sort_requirements_and_providers environ local_state
      requirements_and_providers getMissingToConfigure with
  | none => none
  | some sorted =>
    some (partitionGo (pairHasMissingToConfigure environ local_state) sorted)

/-! ## The provide plan loop (prepare.py lines 151-171) -/

/-- One iteration of the plan loop: skip the entry when the requirement
is already satisfied; otherwise `read_config`, `provide`, then print the
accumulated logs to stdout — only under `if context.errors:` — followed
by the accumulated errors to stderr.  Returns the new working
environment, the emitted output events, and whether `provide` was
invoked. -/
def runPlanStep (local_state : LocalState) (provider : Provider)
    (requirement : Requirement) (environ : Environ) :
    Environ × List OutEvent × Bool :=
  match requirement.why_not_provided environ with
  | none => (environ, [], false)
  | some _ =>
    let config := provider.read_config environ local_state requirement
    let res := provider.provide requirement environ local_state config
    let logEvents := if res.errors.isEmpty then [] else res.logs.map OutEvent.out
    (res.environ, logEvents ++ res.errors.map OutEvent.err, true)

/-- The result of running a provide plan. -/
structure PlanRunResult where
  environ : Environ
  events : List OutEvent
  invoked : List Bool

/-- The plan loop (lines 156-171): execute each `(provider, requirement)`
entry in order against the evolving working environment.  `invoked`
records, per entry, whether `provide` was called. -/
def runPlan (local_state : LocalState) :
    List (Provider × Requirement) → Environ → PlanRunResult
  | [], environ => ⟨environ, [], []⟩
  | (provider, requirement) :: rest, environ =>
    let s := runPlanStep local_state provider requirement environ
    let r := runPlan local_state rest s.1
    ⟨r.environ, s.2.1 ++ r.events, s.2.2 :: r.invoked⟩

/-- The working environment seen by plan entry `i` when it is reached. -/
def planEnvBefore (local_state : LocalState)
    (plan : List (Provider × Requirement)) (environ : Environ) (i : Nat) : Environ :=
  (runPlan local_state (plan.take i) environ).environ

/-- The output events plan entry `i` contributes. -/
def planStepEvents (local_state : LocalState)
    (plan : List (Provider × Requirement)) (environ : Environ) (i : Nat) :
    List OutEvent :=
  match plan.get? i with
  | none => []
  | some (provider, requirement) =>
    (runPlanStep local_state provider requirement
      (planEnvBefore local_state plan environ i)).2.1

/-! ## Verification phase (prepare.py lines 173-181) -/

/-- The verification loop: re-check every requirement of the stage with
`why_not_provided`; each still-unsatisfied requirement prints the
two-line missing-requirement message on stderr and marks the stage
failed. -/
def verifyRequirements (requirements_and_providers : List Pair)
    (environ : Environ) : List OutEvent × Bool :=
  match requirements_and_providers with
  | [] => ([], false)
  | pr :: rest =>
    let r := verifyRequirements rest environ
    match pr.1.why_not_provided environ with
    | none => r
    | some why_not =>
      (OutEvent.err ("missing requirement to run this project: " ++ pr.1.title)
        :: OutEvent.err ("  " ++ why_not) :: r.1, true)

/-- The body of `provide_stage` (lines 138-182): sort by the provide
strategy, flatten into the plan, run the plan loop, then run
verification.  Returns the new working environment, all output events,
and the stage's `failed` flag; `none` models the toposort cycle
exception. -/
def provideStageRun (local_state : LocalState)
    (requirements_and_providers : List Pair) (environ : Environ) :
    Option (Environ × List OutEvent × Bool) :=
  match _sort_requirements_and_providers environ local_state
      requirements_and_providers getMissingToProvide with
  | none => none
  | some sorted =>
    let plan := sorted.flatMap (fun pr => pr.2.map (fun provider => (provider, pr.1)))
    let r := runPlan local_state plan environ
    let v := verifyRequirements requirements_and_providers r.environ
    some (r.environ, r.events ++ v.1, v.2)

/-! ## Stages and the continuation chain -/

/-- The two `and_then` closures the source ever builds:
`process_remaining` (line 239) and `set_vars` (line 324). -/
inductive PrepCont where
  | processRemaining (pairs : List Pair)
  | setVars

/-- The stage chain.  `functionConfigure`/`functionProvide` are the two
`_FunctionPrepareStage`s built by `_configure_and_provide` (the
configure stage executes to the provide stage over the same pairs);
`andThen` is `_AndThenPrepareStage`. -/
inductive Stage where
  | functionConfigure (pairs : List Pair)
  | functionProvide (pairs : List Pair)
  | andThen (inner : Stage) (k : PrepCont)

/-- `_configure_and_provide(project, environ, local_state,
requirements_and_providers)` returns the configure
`_FunctionPrepareStage`; the environment is shared mutable state, so the
stage value only records the pairs. -/
def _configure_and_provide (requirements_and_providers : List Pair) : Stage :=
  Stage.functionConfigure requirements_and_providers

/-- `_after_stage_success(stage, and_then)`. -/
def _after_stage_success (stage : Stage) (and_then : PrepCont) : Stage :=
  Stage.andThen stage and_then

/-- `_process_requirements_and_providers(project, environ, local_state,
requirements_and_providers)` (lines 223-246): partition, then build one
configure-and-provide stage, chaining a `process_remaining` continuation
only when both halves are non-empty; `none` models the toposort cycle
exception. -/
def _process_requirements_and_providers (environ : Environ)
    (local_state : LocalState) (requirements_and_providers : List Pair) :
    Option Stage :=
  match _partition_first_group_to_configure environ local_state
      requirements_and_providers with
  | none => none
  | some (initial, remaining) =>
    if 0 < initial.length ∧ 0 < remaining.length then
      some (_after_stage_success (_configure_and_provide initial)
        (PrepCont.processRemaining remaining))
    else if 0 < initial.length then
      some (_configure_and_provide initial)
    else
      some (_configure_and_provide remaining)

/-- The mutable state shared by the stages: the caller's real
environment, the deep-copied working environment, and everything
printed so far. -/
structure PrepState where
  environ : Environ
  environ_copy : Environ
  events : List OutEvent

/-- The result of one `stage.execute(ui)` call: the executed stage's
`failed` flag, its successor, and the state afterwards. -/
structure ExecResult where
  failed : Bool
  next : Option Stage
  state : PrepState

/-- `set_vars` (lines 324-328): copy every key whose value in the
working environment copy is new or changed back into the caller's real
environment. -/
def set_vars (environ_copy : Environ) (environ : Environ) : Environ :=
  environ_copy.foldl
    (fun acc kv =>
      if envGet acc kv.1 ≠ some kv.2 then envSet acc kv.1 kv.2 else acc)
    environ

/-- Run an `and_then` closure.  `process_remaining` builds the stage
chain for the remaining pairs against the current working environment;
`set_vars` commits the working copy into the caller's environment and
ends the chain.  `none` models an exception escaping the closure. -/
def executeCont (local_state : LocalState) :
    PrepCont → PrepState → Option (Option Stage × PrepState)
  | PrepCont.processRemaining pairs, st =>
    match _process_requirements_and_providers st.environ_copy local_state pairs with
    | none => none
    | some stage => some (some stage, st)
  | PrepCont.setVars, st =>
    some (none, { st with environ := set_vars st.environ_copy st.environ })

/-- `stage.execute(ui)`.  The configure stage invokes the UI contract
(modelled from the spec as not mutating the engine's state) and yields
the provide stage; the provide stage runs the plan and verification
loops against the working environment; `_AndThenPrepareStage.execute`
(lines 82-90) runs the inner stage, re-wraps a successor, propagates
failure, and otherwise calls the `and_then` closure.  `none` models an
exception. -/
def executeStage (local_state : LocalState) :
    Stage → PrepState → Option ExecResult
  | Stage.functionConfigure pairs, st =>
    some ⟨false, some (Stage.functionProvide pairs), st⟩
  | Stage.functionProvide pairs, st =>
    match provideStageRun local_state pairs st.environ_copy with
    | none => none
    | some (environ2, events, failed) =>
      some ⟨failed, none,
        { st with environ_copy := environ2, events := st.events ++ events }⟩
  | Stage.andThen inner k, st =>
    match executeStage local_state inner st with
    | none => none
    | some r =>
      match r.next with
      | some nxt => some ⟨r.failed, some (Stage.andThen nxt k), r.state⟩
      | none =>
        if r.failed then some ⟨true, none, r.state⟩
        else
          match executeCont local_state k r.state with
          | none => none
          | some (next2, st2) => some ⟨r.failed, next2, st2⟩

/-- The driver loop of `prepare` (lines 375-382): execute the current
stage, abort with `False` as soon as an executed stage has its `failed`
flag set, return `True` when no stage remains.  `uiOk = false` models
`ui_mode == UI_MODE_TEXT`, for which the source never binds the local
`ui`, so the first `stage.execute(ui)` raises `UnboundLocalError`
(`none`).  The fuel bounds the loop; `none` also covers exhaustion. -/
def runStages (local_state : LocalState) (uiOk : Bool) :
    Nat → Option Stage → PrepState → Option (Bool × PrepState)
  | _, none, st => some (true, st)
  | 0, some _, _ => none
  | fuel + 1, some stage, st =>
    if uiOk then
      match executeStage local_state stage st with
      | none => none
      | some r =>
        if r.failed then some (false, r.state)
        else runStages local_state uiOk fuel r.next r.state
    else none

/-! ## Transitive requirement expansion (prepare.py lines 249-274) -/

/-- The outcome of `_add_missing_env_var_requirements`: normal return,
the registry failing to synthesize a requirement for a variable (the
exception path), or a recursion that never returned (fuel ran out). -/
inductive ExpandOutcome where
  | ok (pairs : List Pair)
  | unresolvable (var : String)
  | diverge

/-- Python `set` construction over the reported variable names: each
name kept once, in first-seen order (CPython set iteration order is
unspecified; the claims below only depend on membership). -/
def pySetGo (seen : List String) : List String → List String
  | [] => []
  | v :: rest =>
    if seen.contains v then pySetGo seen rest
    else v :: pySetGo (v :: seen) rest

/-- `needed_env_vars` as a deduplicated list. -/
def pySet (l : List String) : List String := pySetGo [] l

/-- The `for env_var in needed_env_vars:` loop (lines 265-270): for each
variable without an existing requirement, ask the registry to synthesize
one and append the new pair; `Except.error` is the unresolvable-variable
case. -/
def addMissingGo (project : Project) (by_env_var : List String) :
    List String → List Pair → Bool → Except String (List Pair × Bool)
  | [], acc, created => Except.ok (acc, created)
  | v :: rest, acc, created =>
    if by_env_var.contains v then addMissingGo project by_env_var rest acc created
    else
      match project.requirement_registry.find_by_env_var v with
      | none => Except.error v
      | some requirement =>
        addMissingGo project by_env_var rest
          (acc ++ [(requirement, project.find_providers requirement)]) true

/-- One pass of `_add_missing_env_var_requirements` (lines 250-270):
collect every variable any provider reports missing (both strategies),
then synthesize requirements for the unknown ones.  Returns the extended
list and the `created_anything` flag. -/
def addMissingPass (project : Project) (environ : Environ)
    (local_state : LocalState) (pairs : List Pair) :
    Except String (List Pair × Bool) :=
  let by_env_var := pairs.map (fun pr => pr.1.env_var)
  let needed_env_vars := pySet (pairs.flatMap (fun pr =>
    pr.2.flatMap (fun provider =>
      provider.missing_env_vars_to_configure pr.1 environ local_state ++
      provider.missing_env_vars_to_provide pr.1 environ local_state)))
  addMissingGo project by_env_var needed_env_vars pairs false

/-- `_add_missing_env_var_requirements` (lines 249-274): run the pass,
and "run the whole above again" while anything was created.  The source
recursion has no termination guard; the fuel makes that explicit —
`diverge` is a run that is still recursing after `fuel` passes, and
`∀ fuel, ... = diverge` is a recursion that never returns. -/
def _add_missing_env_var_requirements (project : Project) (environ : Environ)
    (local_state : LocalState) : Nat → List Pair → ExpandOutcome
  | 0, _ => ExpandOutcome.diverge
  | fuel + 1, pairs =>
    match addMissingPass project environ local_state pairs with
    | Except.error v => ExpandOutcome.unresolvable v
    | Except.ok (pairs2, created_anything) =>
      if created_anything then
        _add_missing_env_var_requirements project environ local_state fuel pairs2
      else ExpandOutcome.ok pairs2

/-- Does the expansion started on `pairs` ever return (normally or with
an exception)?  `∃ fuel` with a non-`diverge` outcome is exactly "some
recursion depth suffices". -/
def expandTerminates (project : Project) (environ : Environ)
    (local_state : LocalState) (pairs : List Pair) : Prop :=
  ∃ fuel, _add_missing_env_var_requirements project environ local_state fuel pairs
    ≠ ExpandOutcome.diverge

/-! ## prepare_in_stages and prepare (lines 277-388) -/

/-- `prepare_in_stages(project, environ)` (lines 277-330): deep-copy the
environment, inject `PROJECT_DIR`, build the initial pair list, expand
transitively — against the caller's original `environ` (line 320) —
then build the stage chain against the working copy and wrap it with the
`set_vars` commit continuation.  Returns the outer stage and the initial
working copy; `none` models an exception (unresolvable variable, fuel,
or a dependency cycle in the first partition). -/
def prepare_in_stages (project : Project) (environ : Environ)
    (local_state : LocalState) (expandFuel : Nat) : Option (Stage × Environ) :=
  let environ_copy := envSet environ "PROJECT_DIR" project.directory_path
  let pairs0 := project.requirements.map
    (fun requirement => (requirement, project.find_providers requirement))
  match _add_missing_env_var_requirements project environ local_state
      expandFuel pairs0 with
  | ExpandOutcome.ok pairs =>
    match _process_requirements_and_providers environ_copy local_state pairs with
    | none => none
    | some first_stage =>
      some (_after_stage_success first_stage PrepCont.setVars, environ_copy)
  | ExpandOutcome.unresolvable _ => none
  | ExpandOutcome.diverge => none

/-- `UI_MODE_TEXT`. -/
def UI_MODE_TEXT : String := "text"

/-- `UI_MODE_BROWSER`. -/
def UI_MODE_BROWSER : String := "browser"

/-- `UI_MODE_NOT_INTERACTIVE`. -/
def UI_MODE_NOT_INTERACTIVE : String := "not_interactive"

/-- `_all_ui_modes` (line 23). -/
def _all_ui_modes : List String :=
  [UI_MODE_TEXT, UI_MODE_BROWSER, UI_MODE_NOT_INTERACTIVE]

/-- What a `prepare` call ends with: `valueError` is the explicit
`raise ValueError` on an invalid ui mode (it carries no state because
nothing has run yet); `exn` is any other escaping exception
(`UnboundLocalError` for the unbound text-mode `ui`, a toposort cycle,
an unresolvable expansion variable) or fuel exhaustion; `ok` is a normal
boolean return carrying the caller's environment, the final working
copy, and everything printed. -/
inductive PrepareResult where
  | valueError
  | exn
  | ok (success : Bool) (environ : Environ) (environ_copy : Environ)
      (events : List OutEvent)

/-- `prepare(project, environ, ui_mode, ...)` (lines 338-388): validate
the ui mode first (the invalid-mode `ValueError` is raised before the
environment is copied, any stage is built, or any side effect happens),
build the stage chain, then drive it; `UI_MODE_TEXT` leaves the local
`ui` unbound, so the first loop iteration raises.  The io-loop and
browser plumbing are external collaborators with no effect on the
engine's state. -/
def prepare (project : Project) (environ : Environ) (local_state : LocalState)
    (ui_mode : String) (expandFuel stageFuel : Nat) : PrepareResult :=
  if !(_all_ui_modes.contains ui_mode) then PrepareResult.valueError
  else
    match prepare_in_stages project environ local_state expandFuel with
    | none => PrepareResult.exn
    | some (stage, environ_copy) =>
      let uiOk := ui_mode ≠ UI_MODE_TEXT
      match runStages local_state uiOk stageFuel (some stage)
          ⟨environ, environ_copy, []⟩ with
      | none => PrepareResult.exn
      | some (success, st) =>
        PrepareResult.ok success st.environ st.environ_copy st.events

/-! ## Teardown (`unprepare`, lines 391-417) -/

/-- A rendering of Python `repr` for an argument list, used by the
`"Running " + repr(command)` print. -/
def pyReprCmd (command : List String) : String :=
  "[" ++ String.intercalate ", " (command.map (fun a => "'" ++ a ++ "'")) ++ "]"

/-- Run one resource's shutdown commands in order (lines 411-414): print
the command, call it (the `exec` oracle models `subprocess.call`), print
the exit code.  Returns the printed lines and the executed
`(command, exit code)` trace. -/
def runShutdownCommands (exec : List String → Int) :
    List (List String) → List String × List (List String × Int)
  | [] => ([], [])
  | command :: rest =>
    let code := exec command
    let r := runShutdownCommands exec rest
    (("Running " ++ pyReprCmd command) :: ("  exited with " ++ toString code) :: r.1,
      (command, code) :: r.2)

/-- Everything observable about an `unprepare` call: the stdout lines,
the executed commands with exit codes, each state persisted by a
`save()` call in order, the final state, and the function's return
value — the source has no `return` statement, so Python returns `None`
(`none`). -/
structure UnprepareResult where
  stdout : List String
  execTrace : List (List String × Int)
  saves : List LocalState
  final : LocalState
  returnValue : Option Bool

/-- The `for service_name in copy(run_states):` loop (lines 407-417):
for each tracked resource, run its `shutdown_commands` if present, then
clear that resource's run state and `save()` immediately.  Iterates the
snapshot of names taken before the loop while threading the evolving
store. -/
def unprepareGo (exec : List String → Int) :
    List (String × ServiceState) → LocalState → UnprepareResult
  | [], current => ⟨[], [], [], current, none⟩
  | (service_name, state) :: rest, current =>
    let ran :=
      match state.shutdown_commands with
      | none => ([], [])
      | some commands => runShutdownCommands exec commands
    let current2 := setServiceRunState current service_name ⟨none⟩
    let r := unprepareGo exec rest current2
    ⟨ran.1 ++ r.stdout, ran.2 ++ r.execTrace, current2 :: r.saves, r.final,
      r.returnValue⟩

/-- `unprepare(project)` (lines 391-417) over a loaded local state. -/
def unprepare (exec : List String → Int) (local_state : LocalState) :
    UnprepareResult :=
  unprepareGo exec local_state local_state

/-! ## Concrete instances used by witnesses and counterexamples -/

/-- A requirement that is never satisfied. -/
def rAlwaysUnsat : Requirement := ⟨"U", "u", fun _ => some "unsatisfied"⟩

/-- A provider whose `provide` only accumulates the log line `"hello"`
(no errors, no environment changes). -/
def pLogOnly : Provider :=
  ⟨fun _ _ _ => [], fun _ _ _ => [], fun _ _ _ => [],
   fun _ e _ _ => ⟨e, ["hello"], []⟩⟩

/-- A requirement that is always satisfied. -/
def rAlwaysSat : Requirement := ⟨"S", "s", fun _ => none⟩

/-- A provider that does nothing at all. -/
def pNop : Provider :=
  ⟨fun _ _ _ => [], fun _ _ _ => [], fun _ _ _ => [],
   fun _ e _ _ => ⟨e, [], []⟩⟩

/-- The execution result of the provide stage over the single
never-satisfied requirement, starting from an empty state. -/
def c4ExpectedResult : ExecResult :=
  ⟨true, none,
    ⟨[], [],
      [OutEvent.err "missing requirement to run this project: u",
       OutEvent.err "  unsatisfied"]⟩⟩

/-- The empty project over an always-successful registry. -/
def proj0 : Project := ⟨"/p0", [], ⟨fun _ => none⟩, fun _ => []⟩

/-- A provider that still needs `"X"` before it can be configured. -/
def pMissingX : Provider :=
  ⟨fun _ _ _ => ["X"], fun _ _ _ => [], fun _ _ _ => [],
   fun _ e _ _ => ⟨e, [], []⟩⟩

/-- A never-satisfied requirement named `B`. -/
def rBlock : Requirement := ⟨"B", "b", fun _ => some "nope"⟩

/-- The variable name `"xx…x"` with `i` letters. -/
def xChain (i : Nat) : String := String.mk (List.replicate i 'x')

/-- A never-satisfied requirement for an arbitrary variable name. -/
def reqGrow (v : String) : Requirement := ⟨v, v, fun _ => some "never"⟩

/-- A provider that always reports one more missing configure-time
variable: its requirement's own name extended by one letter. -/
def provGrow : Provider :=
  ⟨fun requirement _ _ => [requirement.env_var ++ "x"],
   fun _ _ _ => [], fun _ _ _ => [],
   fun _ e _ _ => ⟨e, [], []⟩⟩

/-- A project whose registry resolves every variable name (to a
`reqGrow` requirement backed by `provGrow`): the expansion never fails
explicitly, yet each pass keeps discovering a fresh variable. -/
def projGrow : Project :=
  ⟨"/grow", [reqGrow (xChain 0)],
   ⟨fun v => some (reqGrow v)⟩,
   fun _ => [provGrow]⟩

/-- The pair list after `n` expansion passes on `projGrow`:
requirements for `""`, `"x"`, …, `"x"^n`. -/
def chainPairs (n : Nat) : List Pair :=
  (List.range (n + 1)).map (fun i => (reqGrow (xChain i), [provGrow]))

/-- Clearing the run states of a list of service names in order,
starting from a given store. -/
def clearFirst (names : List String) (cur : LocalState) : LocalState :=
  names.foldl (fun acc n => setServiceRunState acc n ⟨none⟩) cur

/-- A `subprocess.call` oracle under which `["false"]` exits 1 and
everything else exits 0. -/
def exec0 : List String → Int := fun c => if c = ["false"] then 1 else 0

/-- Two tracked resources: one whose shutdown command fails, one whose
shutdown command succeeds (spec section 8, property 9's scenario). -/
def ls0 : LocalState :=
  [("s1", ⟨some [["false"]]⟩), ("s2", ⟨some [["echo", "ok"]]⟩)]

/-- Whether an `and_then` closure is `process_remaining` (rather than
the `set_vars` commit). -/
def contNoSetVars : PrepCont → Bool
  | PrepCont.processRemaining _ => true
  | PrepCont.setVars => false

/-- Whether a stage contains no `set_vars` continuation anywhere: true
of every stage `_process_requirements_and_providers` builds — only the
outermost wrapper added by `prepare_in_stages` commits to the caller's
environment. -/
def noSetVars : Stage → Bool
  | Stage.functionConfigure _ => true
  | Stage.functionProvide _ => true
  | Stage.andThen inner k => noSetVars inner && contNoSetVars k

/-- A requirement satisfied once both `PROJECT_DIR` and `NEEDED` are
set. -/
def reqMain : Requirement :=
  ⟨"MAIN", "main requirement", fun e =>
    if envMem e "PROJECT_DIR" && envMem e "NEEDED" then none else some "unmet"⟩

/-- A provider that reports the missing variable `"NEEDED"` exactly when
`PROJECT_DIR` is absent from the environment it is asked about. -/
def provMain : Provider :=
  ⟨fun _ e _ => if envMem e "PROJECT_DIR" then [] else ["NEEDED"],
   fun _ e _ => if envMem e "PROJECT_DIR" then [] else ["NEEDED"],
   fun _ _ _ => [],
   fun _ e _ _ => ⟨e, [], []⟩⟩

/-- The requirement the registry synthesizes for `"NEEDED"`. -/
def reqNeeded : Requirement :=
  ⟨"NEEDED", "needed requirement", fun e =>
    if envMem e "NEEDED" then none else some "NEEDED missing"⟩

/-- The provider that satisfies `reqNeeded` by setting `NEEDED=yes`. -/
def provNeeded : Provider :=
  ⟨fun _ _ _ => [], fun _ _ _ => [], fun _ _ _ => [],
   fun _ e _ _ => ⟨envSet e "NEEDED" "yes", [], []⟩⟩

/-- A project whose single declared requirement is `reqMain` and whose
registry resolves only `"NEEDED"`. -/
def proj9 : Project :=
  ⟨"/proj9", [reqMain],
   ⟨fun v => if v = "NEEDED" then some reqNeeded else none⟩,
   fun r => if r.env_var = "MAIN" then [provMain]
            else if r.env_var = "NEEDED" then [provNeeded] else []⟩

/-- A satisfied requirement named `A`. -/
def reqA : Requirement := ⟨"A", "a", fun _ => none⟩

/-- A satisfied requirement named `B`. -/
def reqB : Requirement := ⟨"B", "b", fun _ => none⟩

/-- A provider that always still needs `"B"` before it can provide. -/
def provNeedsB : Provider :=
  ⟨fun _ _ _ => [], fun _ _ _ => ["B"], fun _ _ _ => [],
   fun _ e _ _ => ⟨e, [], []⟩⟩

/-! ## Theorems -/

/-! ### Plan-loop lemmas -/

/-- Unfolding `runPlan` over a cons cell. -/
theorem runPlan_cons (local_state : LocalState) (provider : Provider)
    (requirement : Requirement) (rest : List (Provider × Requirement))
    (environ : Environ) :
    runPlan local_state ((provider, requirement) :: rest) environ =
      ⟨(runPlan local_state rest
          (runPlanStep local_state provider requirement environ).1).environ,
        (runPlanStep local_state provider requirement environ).2.1 ++
          (runPlan local_state rest
            (runPlanStep local_state provider requirement environ).1).events,
        (runPlanStep local_state provider requirement environ).2.2 ::
          (runPlan local_state rest
            (runPlanStep local_state provider requirement environ).1).invoked⟩ :=
  rfl

/-- A satisfied requirement makes the plan step a no-op that does not
invoke `provide`. -/
theorem runPlanStep_skip (local_state : LocalState) (provider : Provider)
    (requirement : Requirement) (environ : Environ)
    (h : requirement.why_not_provided environ = none) :
    runPlanStep local_state provider requirement environ = (environ, [], false) := by
  simp [runPlanStep, h]

/-- The plan entry reached with its requirement already satisfied is
skipped: its `invoked` flag is `false`. -/
theorem runPlan_skips_satisfied (local_state : LocalState) :
    ∀ (plan : List (Provider × Requirement)) (environ : Environ) (i : Nat)
      (provider : Provider) (requirement : Requirement),
      plan.get? i = some (provider, requirement) →
      requirement.why_not_provided
        (planEnvBefore local_state plan environ i) = none →
      (runPlan local_state plan environ).invoked.get? i = some false := by
  intro plan
  induction plan with
  | nil => intro environ i provider requirement hget; simp at hget
  | cons x rest ih =>
    intro environ i provider requirement hget hsat
    obtain ⟨p0, r0⟩ := x
    match i with
    | 0 =>
      simp at hget
      obtain ⟨hp, hr⟩ := hget
      have henv : planEnvBefore local_state ((p0, r0) :: rest)
          environ 0 = environ := by
        simp [planEnvBefore, runPlan]
      rw [henv] at hsat
      have hsat0 : r0.why_not_provided environ = none := by
        rw [hr]; exact hsat
      rw [runPlan_cons]
      simp [runPlanStep_skip local_state p0 r0 environ hsat0]
    | Nat.succ j =>
      have hget2 : rest.get? j = some (provider, requirement) := by
        simpa using hget
      have henv : planEnvBefore local_state ((p0, r0) :: rest) environ (j + 1) =
          planEnvBefore local_state rest
            (runPlanStep local_state p0 r0 environ).1 j := by
        simp [planEnvBefore, List.take_succ_cons, runPlan_cons]
      rw [henv] at hsat
      rw [runPlan_cons]
      simpa using ih (runPlanStep local_state p0 r0 environ).1 j provider
        requirement hget2 hsat

/-- C5: a requirement whose `why_not_provided` returns `None` before its
stage executes and still returns `None` at the moment its plan entry is
reached is skipped — `provide()` is never invoked for that entry (the
source tests exactly the at-entry condition, prepare.py lines 157-159). -/
theorem satisfied_requirement_not_provided (local_state : LocalState)
    (plan : List (Provider × Requirement)) (environ : Environ) (i : Nat)
    (provider : Provider) (requirement : Requirement)
    (hget : plan.get? i = some (provider, requirement))
    (_hsatBefore : requirement.why_not_provided environ = none)
    (hsatAt : requirement.why_not_provided
      (planEnvBefore local_state plan environ i) = none) :
    (runPlan local_state plan environ).invoked.get? i = some false :=
  runPlan_skips_satisfied local_state plan environ i provider requirement hget hsatAt

/-- Witness for C5 at a concrete one-entry plan over an
already-satisfied requirement. -/
theorem satisfied_requirement_not_provided_witness :
    [(pNop, rAlwaysSat)].get? 0 = some (pNop, rAlwaysSat) ∧
    rAlwaysSat.why_not_provided [] = none ∧
    (runPlan [] [(pNop, rAlwaysSat)] []).invoked.get? 0 = some false :=
  ⟨rfl, rfl,
    satisfied_requirement_not_provided [] [(pNop, rAlwaysSat)] [] 0 pNop
      rAlwaysSat rfl rfl rfl⟩

/-- Entry 0 of a non-empty plan contributes the events of its own step
against the starting environment. -/
theorem planStepEvents_zero (local_state : LocalState) (p0 : Provider)
    (r0 : Requirement) (rest : List (Provider × Requirement)) (environ : Environ) :
    planStepEvents local_state ((p0, r0) :: rest) environ 0 =
      (runPlanStep local_state p0 r0 environ).2.1 := by
  simp [planStepEvents, planEnvBefore, runPlan]

/-- Shifting `planStepEvents` across the head of the plan. -/
theorem planStepEvents_succ (local_state : LocalState) (p0 : Provider)
    (r0 : Requirement) (rest : List (Provider × Requirement)) (environ : Environ)
    (i : Nat) :
    planStepEvents local_state ((p0, r0) :: rest) environ (i + 1) =
      planStepEvents local_state rest
        (runPlanStep local_state p0 r0 environ).1 i := by
  simp [planStepEvents, planEnvBefore, List.take_succ_cons, runPlan_cons]

/-- The plan loop's output stream is exactly the concatenation of the
per-entry event lists, in plan order. -/
theorem runPlan_events_flatten (local_state : LocalState) :
    ∀ (plan : List (Provider × Requirement)) (environ : Environ),
      (runPlan local_state plan environ).events =
        (List.range plan.length).flatMap (planStepEvents local_state plan environ) := by
  intro plan
  induction plan with
  | nil => intro environ; simp [runPlan]
  | cons x rest ih =>
    intro environ
    obtain ⟨p0, r0⟩ := x
    rw [runPlan_cons]
    simp only [List.length_cons, List.range_succ_eq_map, List.flatMap_cons,
      List.flatMap_map]
    rw [planStepEvents_zero]
    have hsh : ∀ i : Nat, planStepEvents local_state ((p0, r0) :: rest) environ
        (Nat.succ i) = planStepEvents local_state rest
          (runPlanStep local_state p0 r0 environ).1 i := by
      intro i
      exact planStepEvents_succ local_state p0 r0 rest environ i
    simp only [hsh]
    rw [ih (runPlanStep local_state p0 r0 environ).1]

/-- Amended C6: the events one provide call contributes are either
nothing at all — in particular when the call produced no errors its logs
are never flushed (prepare.py line 164 guards the log flush with
`if context.errors:`) — or, when the call produced at least one error,
all of its logs on stdout followed by all of its errors on stderr. -/
theorem provide_call_output_shape (local_state : LocalState)
    (plan : List (Provider × Requirement)) (environ : Environ) :
    (runPlan local_state plan environ).events =
      (List.range plan.length).flatMap (planStepEvents local_state plan environ) ∧
    ∀ i : Nat, planStepEvents local_state plan environ i = [] ∨
      ∃ logs errors : List String, errors ≠ [] ∧
        planStepEvents local_state plan environ i =
          logs.map OutEvent.out ++ errors.map OutEvent.err := by
  refine ⟨runPlan_events_flatten local_state plan environ, ?_⟩
  intro i
  rcases hget : plan[i]? with _ | ⟨provider, requirement⟩
  · left
    simp [planStepEvents, hget]
  · rcases hw : requirement.why_not_provided
        (planEnvBefore local_state plan environ i) with _ | w
    · left
      simp [planStepEvents, hget, runPlanStep, hw]
    · by_cases herr : (provider.provide requirement
          (planEnvBefore local_state plan environ i) local_state
          (provider.read_config (planEnvBefore local_state plan environ i)
            local_state requirement)).errors = []
      · left
        simp [planStepEvents, hget, runPlanStep, hw, herr]
      · right
        refine ⟨(provider.provide requirement
            (planEnvBefore local_state plan environ i) local_state
            (provider.read_config (planEnvBefore local_state plan environ i)
              local_state requirement)).logs,
          (provider.provide requirement
            (planEnvBefore local_state plan environ i) local_state
            (provider.read_config (planEnvBefore local_state plan environ i)
              local_state requirement)).errors, herr, ?_⟩
        simp [planStepEvents, hget, runPlanStep, hw,
          List.isEmpty_iff, herr]

/-- Counterexample to C6 as stated: a provide call that accumulates the
log line `"hello"` and no errors is invoked, yet nothing is ever
written — its logs do not precede its errors, they are dropped. -/
theorem logs_without_errors_never_flushed :
    (runPlan [] [(pLogOnly, rAlwaysUnsat)] []).invoked = [true] ∧
    (pLogOnly.provide rAlwaysUnsat [] []
      (pLogOnly.read_config [] [] rAlwaysUnsat)).logs = ["hello"] ∧
    (runPlan [] [(pLogOnly, rAlwaysUnsat)] []).events = [] :=
  ⟨rfl, rfl, rfl⟩

/-! ### Verification-phase lemmas (C4) -/

/-- The verification loop fails exactly when some requirement of the
stage is still unsatisfied. -/
theorem verifyRequirements_failed_iff (environ : Environ) :
    ∀ pairs : List Pair,
      (verifyRequirements pairs environ).2 = true ↔
        ∃ pr ∈ pairs, (pr.1.why_not_provided environ).isSome := by
  intro pairs
  induction pairs with
  | nil => simp [verifyRequirements]
  | cons pr rest ih =>
    rcases hw : pr.1.why_not_provided environ with _ | w
    · simp only [verifyRequirements, hw]
      rw [ih]
      constructor
      · intro h
        obtain ⟨q, hq, hqs⟩ := h
        exact ⟨q, List.mem_cons_of_mem pr hq, hqs⟩
      · intro h
        obtain ⟨q, hq, hqs⟩ := h
        rcases List.mem_cons.mp hq with hq1 | hq2
        · subst hq1
          rw [hw] at hqs
          simp at hqs
        · exact ⟨q, hq2, hqs⟩
    · simp only [verifyRequirements, hw]
      constructor
      · intro _
        exact ⟨pr, List.mem_cons_self pr rest, by rw [hw]; rfl⟩
      · intro _
        trivial

/-- The verification loop prints, for each still-unsatisfied requirement
in stage order, the two-line missing-requirement message (title, then
the `why_not` reason) on stderr. -/
theorem verifyRequirements_events_eq (environ : Environ) :
    ∀ pairs : List Pair,
      (verifyRequirements pairs environ).1 =
        pairs.flatMap (fun pr =>
          match pr.1.why_not_provided environ with
          | none => []
          | some w =>
            [OutEvent.err ("missing requirement to run this project: " ++ pr.1.title),
             OutEvent.err ("  " ++ w)]) := by
  intro pairs
  induction pairs with
  | nil => simp [verifyRequirements]
  | cons pr rest ih =>
    rcases hw : pr.1.why_not_provided environ with _ | w
    · simp only [verifyRequirements, hw, List.flatMap_cons]
      rw [ih]
      simp
    · simp only [verifyRequirements, hw, List.flatMap_cons]
      rw [ih]
      simp

/-- C4: executing a work (provide) stage re-checks every requirement of
the stage after the plan loop; the stage's `failed` flag is set iff some
requirement is still unsatisfied, each unsatisfied requirement gets its
two-line missing-requirement message (title and `why_not` reason) on the
error channel, and the stage returns no successor regardless of outcome. -/
theorem provide_stage_verification (local_state : LocalState)
    (pairs : List Pair) (st : PrepState) (r : ExecResult)
    (h : executeStage local_state (Stage.functionProvide pairs) st = some r) :
    r.next = none ∧
    (r.failed = true ↔
      ∃ pr ∈ pairs, (pr.1.why_not_provided r.state.environ_copy).isSome) ∧
    ∃ planEvents : List OutEvent,
      r.state.events = st.events ++ planEvents ++
        pairs.flatMap (fun pr =>
          match pr.1.why_not_provided r.state.environ_copy with
          | none => []
          | some w =>
            [OutEvent.err ("missing requirement to run this project: " ++ pr.1.title),
             OutEvent.err ("  " ++ w)]) := by
  rcases hps : provideStageRun local_state pairs st.environ_copy
    with _ | ⟨environ2, events, failed⟩
  · rw [executeStage, hps] at h
    exact absurd h (by simp)
  · rw [executeStage, hps] at h
    simp only [Option.some.injEq] at h
    subst h
    rcases hsort : _sort_requirements_and_providers st.environ_copy local_state
        pairs getMissingToProvide with _ | sorted
    · rw [provideStageRun, hsort] at hps
      exact absurd hps (by simp)
    · rw [provideStageRun, hsort] at hps
      simp only [Option.some.injEq, Prod.mk.injEq] at hps
      obtain ⟨henv, hev, hfail⟩ := hps
      refine ⟨rfl, ?_, ?_⟩
      · simp only []
        rw [← hfail, ← henv]
        exact verifyRequirements_failed_iff _ pairs
      · refine ⟨(runPlan local_state
          (sorted.flatMap (fun pr => pr.2.map (fun provider => (provider, pr.1))))
          st.environ_copy).events, ?_⟩
        simp only []
        rw [← hev, ← henv]
        rw [List.append_assoc]
        congr 1
        congr 1
        exact verifyRequirements_events_eq _ pairs

/-- Witness for C4 at the concrete never-satisfied requirement. -/
theorem provide_stage_verification_witness :
    executeStage [] (Stage.functionProvide [(rAlwaysUnsat, [])]) ⟨[], [], []⟩ =
      some c4ExpectedResult ∧
    (c4ExpectedResult.next = none ∧
      (c4ExpectedResult.failed = true ↔
        ∃ pr ∈ [(rAlwaysUnsat, ([] : List Provider))],
          (pr.1.why_not_provided c4ExpectedResult.state.environ_copy).isSome) ∧
      ∃ planEvents : List OutEvent,
        c4ExpectedResult.state.events = [] ++ planEvents ++
          [((rAlwaysUnsat, ([] : List Provider)))].flatMap (fun pr =>
            match pr.1.why_not_provided c4ExpectedResult.state.environ_copy with
            | none => []
            | some w =>
              [OutEvent.err ("missing requirement to run this project: " ++ pr.1.title),
               OutEvent.err ("  " ++ w)])) :=
  ⟨rfl, provide_stage_verification [] [(rAlwaysUnsat, [])] ⟨[], [], []⟩
    c4ExpectedResult rfl⟩

/-! ### UI-mode validation (C10) -/

/-- C10: `prepare` raises `ValueError` exactly when its `ui_mode` is not
one of the three mode constants, and it does so before copying the
environment, building any stage, or performing any side effect — the
result carries no state and is the same whatever the project,
environment, local state or fuel; for a valid mode no `ValueError` is
possible (in particular `UI_MODE_TEXT`, whose failure mode is the
unbound-`ui` exception, not `ValueError`). -/
theorem prepare_valueerror_iff_invalid_mode (project : Project)
    (environ : Environ) (local_state : LocalState) (ui_mode : String)
    (expandFuel stageFuel : Nat) :
    (¬ ui_mode ∈ _all_ui_modes →
      prepare project environ local_state ui_mode expandFuel stageFuel =
        PrepareResult.valueError) ∧
    (ui_mode ∈ _all_ui_modes →
      prepare project environ local_state ui_mode expandFuel stageFuel ≠
        PrepareResult.valueError) := by
  by_cases hc : _all_ui_modes.contains ui_mode
  · have hmem : ui_mode ∈ _all_ui_modes := List.elem_iff.mp hc
    refine ⟨fun hno => absurd hmem hno, fun _ => ?_⟩
    rw [prepare, hc]
    simp only [Bool.not_true, Bool.false_eq_true, if_false]
    rcases hpis : prepare_in_stages project environ local_state expandFuel
        with _ | ⟨stage, environ_copy⟩
    · simp
    · rcases hrun : runStages local_state (!decide (ui_mode = UI_MODE_TEXT))
          stageFuel (some stage) ⟨environ, environ_copy, []⟩
          with _ | ⟨success, st⟩
      · simp [hrun]
      · simp [hrun]
  · have hmem : ¬ ui_mode ∈ _all_ui_modes := fun h => hc (List.elem_iff.mpr h)
    refine ⟨fun _ => ?_, fun hyes => absurd hyes hmem⟩
    have hcf : _all_ui_modes.contains ui_mode = false := by
      simpa using hc
    rw [prepare, hcf]
    simp

/-- Witness for C10 at the invalid mode string `"bogus"` and at the
valid mode `UI_MODE_NOT_INTERACTIVE`. -/
theorem prepare_valueerror_iff_invalid_mode_witness :
    prepare proj0 [] [] "bogus" 1 4 = PrepareResult.valueError ∧
    prepare proj0 [] [] UI_MODE_NOT_INTERACTIVE 1 4 ≠ PrepareResult.valueError :=
  ⟨(prepare_valueerror_iff_invalid_mode proj0 [] [] "bogus" 1 4).1 (by decide),
   (prepare_valueerror_iff_invalid_mode proj0 [] [] UI_MODE_NOT_INTERACTIVE 1 4).2
     (by decide)⟩

/-! ### Stage partitioner (C3) -/

/-- The partition walk splits its input into a prefix with no missing
variables and a suffix headed (when non-empty because the walk stopped
there) by the first pair with missing variables, without reordering,
dropping or duplicating pairs. -/
theorem partitionGo_spec (f : Pair → Bool) :
    ∀ l : List Pair,
      (partitionGo f l).1 ++ (partitionGo f l).2 = l ∧
      (∀ p ∈ (partitionGo f l).1, f p = false) ∧
      (∀ q rest, (partitionGo f l).2 = q :: rest → f q = true) := by
  intro l
  induction l with
  | nil => simp [partitionGo]
  | cons p rest ih =>
    by_cases hf : f p
    · refine ⟨?_, ?_, ?_⟩
      · simp [partitionGo, hf]
      · intro q hq
        simp [partitionGo, hf] at hq
      · intro q tl hq
        have hpq : p = q := by
          simp only [partitionGo, hf, if_true] at hq
          exact (List.cons.injEq p rest q tl ▸ hq).1
        rw [← hpq]
        exact hf
    · have hfFalse : f p = false := Bool.not_eq_true (f p) ▸ (by simpa using hf)
      obtain ⟨ih1, ih2, ih3⟩ := ih
      refine ⟨?_, ?_, ?_⟩
      · simp only [partitionGo, hfFalse, Bool.false_eq_true, if_false]
        rw [List.cons_append, ih1]
      · intro q hq
        simp only [partitionGo, hfFalse, Bool.false_eq_true, if_false] at hq
        rcases List.mem_cons.mp hq with hq1 | hq2
        · rw [hq1]; exact hfFalse
        · exact ih2 q hq2
      · intro q tl hq
        simp only [partitionGo, hfFalse, Bool.false_eq_true, if_false] at hq
        exact ih3 q tl hq

/-- C3: `_partition_first_group_to_configure` returns `(head, tail)`
with `head ++ tail` equal to the topologically-ordered list it
partitions (nothing dropped, duplicated or reordered), every pair in
`head` — all of its providers — reporting zero missing-to-configure
variables at partition time, and, whenever the walk stopped (`tail`
non-empty up to the un-walked remainder), the first element of `tail`
being the first pair whose providers report a missing-to-configure
variable. -/
theorem partition_first_group_invariant (environ : Environ)
    (local_state : LocalState) (pairs head tail : List Pair)
    (h : _partition_first_group_to_configure environ local_state pairs =
      some (head, tail)) :
    ∃ sorted : List Pair,
      _sort_requirements_and_providers environ local_state pairs
          getMissingToConfigure = some sorted ∧
      head ++ tail = sorted ∧
      (∀ p ∈ head, pairHasMissingToConfigure environ local_state p = false) ∧
      (∀ p ∈ head, ∀ provider ∈ p.2,
        provider.missing_env_vars_to_configure p.1 environ local_state = []) ∧
      (∀ q rest, tail = q :: rest →
        pairHasMissingToConfigure environ local_state q = true) := by
  rcases hsort : _sort_requirements_and_providers environ local_state pairs
      getMissingToConfigure with _ | sorted
  · rw [_partition_first_group_to_configure, hsort] at h
    exact absurd h (by simp)
  · rw [_partition_first_group_to_configure, hsort] at h
    simp only [Option.some.injEq] at h
    have hhead : (partitionGo (pairHasMissingToConfigure environ local_state)
        sorted).1 = head := by rw [h]
    have htail : (partitionGo (pairHasMissingToConfigure environ local_state)
        sorted).2 = tail := by rw [h]
    obtain ⟨h1, h2, h3⟩ :=
      partitionGo_spec (pairHasMissingToConfigure environ local_state) sorted
    rw [hhead] at h1 h2
    rw [htail] at h1 h3
    refine ⟨sorted, rfl, h1, h2, ?_, h3⟩
    intro p hp provider hprov
    have hfalse := h2 p hp
    rw [pairHasMissingToConfigure] at hfalse
    have hall := List.any_eq_false.mp hfalse provider hprov
    simpa [List.isEmpty_iff] using hall

/-- Witness for C3 at a two-pair input whose second pair still needs the
unconfigured variable `"X"`. -/
theorem partition_first_group_invariant_witness :
    _partition_first_group_to_configure [] []
        [(rAlwaysSat, [pNop]), (rBlock, [pMissingX])] =
      some ([(rAlwaysSat, [pNop])], [(rBlock, [pMissingX])]) ∧
    ∃ sorted : List Pair,
      _sort_requirements_and_providers [] []
          [(rAlwaysSat, [pNop]), (rBlock, [pMissingX])]
          getMissingToConfigure = some sorted ∧
      [(rAlwaysSat, [pNop])] ++ [(rBlock, [pMissingX])] = sorted ∧
      (∀ p ∈ [(rAlwaysSat, [pNop])],
        pairHasMissingToConfigure [] [] p = false) ∧
      (∀ p ∈ [(rAlwaysSat, [pNop])], ∀ provider ∈ p.2,
        provider.missing_env_vars_to_configure p.1 [] [] = []) ∧
      (∀ q rest, [(rBlock, [pMissingX])] = q :: rest →
        pairHasMissingToConfigure [] [] q = true) :=
  ⟨rfl, partition_first_group_invariant [] []
    [(rAlwaysSat, [pNop]), (rBlock, [pMissingX])]
    [(rAlwaysSat, [pNop])] [(rBlock, [pMissingX])] rfl⟩

/-! ### Transitive requirement expansion (C7) -/

/-- Length of a chain variable name. -/
theorem xChain_length (i : Nat) : (xChain i).length = i := by
  simp [xChain, String.length]

/-- Growing a chain variable name by one letter. -/
theorem xChain_succ (i : Nat) : xChain (i + 1) = xChain i ++ "x" := by
  simp [xChain, List.replicate_succ']
  rfl

/-- Chain variable names are injective. -/
theorem xChain_inj (i j : Nat) (h : xChain i = xChain j) : i = j := by
  have := congrArg String.length h
  simpa [xChain, String.length] using this

/-- The expansion loop skips a block of already-known variables. -/
theorem addMissingGo_skip_known (project : Project) (known : List String) :
    ∀ (vs ws : List String) (acc : List Pair) (created : Bool),
      (∀ v ∈ vs, known.contains v = true) →
      addMissingGo project known (vs ++ ws) acc created =
        addMissingGo project known ws acc created := by
  intro vs
  induction vs with
  | nil => intro ws acc created _; simp
  | cons v rest ih =>
    intro ws acc created hknown
    have hv : known.contains v = true := hknown v (List.mem_cons_self v rest)
    rw [List.cons_append, addMissingGo, if_pos hv]
    exact ih ws acc created (fun w hw => hknown w (List.mem_cons_of_mem v hw))

/-- If the expansion loop returns with the `created` flag still `false`,
it appended nothing: the accumulator is returned unchanged. -/
theorem addMissingGo_ok_false (project : Project) (known : List String) :
    ∀ (vs : List String) (acc : List Pair) (created : Bool) (acc2 : List Pair),
      addMissingGo project known vs acc created = Except.ok (acc2, false) →
      acc2 = acc ∧ created = false := by
  intro vs
  induction vs with
  | nil =>
    intro acc created acc2 h
    rw [addMissingGo] at h
    simp only [Except.ok.injEq, Prod.mk.injEq] at h
    exact ⟨h.1.symm, h.2⟩
  | cons v rest ih =>
    intro acc created acc2 h
    rw [addMissingGo] at h
    by_cases hv : known.contains v
    · rw [if_pos hv] at h
      exact ih acc created acc2 h
    · rw [if_neg hv] at h
      rcases hreg : project.requirement_registry.find_by_env_var v with _ | req
      · rw [hreg] at h
        exact absurd h (by simp)
      · rw [hreg] at h
        obtain ⟨_, habs⟩ := ih _ true acc2 h
        exact absurd habs (by simp)

/-- Amended C7, first half: whenever the expansion returns normally, its
result is a fixed point — running one more pass over the returned list
creates nothing and returns it unchanged. -/
theorem expansion_result_is_fixed_point (project : Project) (environ : Environ)
    (local_state : LocalState) :
    ∀ (fuel : Nat) (pairs out : List Pair),
      _add_missing_env_var_requirements project environ local_state fuel pairs =
        ExpandOutcome.ok out →
      addMissingPass project environ local_state out = Except.ok (out, false) := by
  intro fuel
  induction fuel with
  | zero =>
    intro pairs out h
    rw [_add_missing_env_var_requirements] at h
    exact absurd h (by simp)
  | succ fuel ih =>
    intro pairs out h
    rw [_add_missing_env_var_requirements] at h
    rcases hpass : addMissingPass project environ local_state pairs
        with v | ⟨pairs2, created⟩
    · rw [hpass] at h
      exact absurd h (by simp)
    · rw [hpass] at h
      cases created with
      | true =>
        exact ih pairs2 out (by simpa using h)
      | false =>
        have hout : pairs2 = out := by simpa using h
        have hacc : pairs2 = pairs :=
          (addMissingGo_ok_false project
            (pairs.map (fun pr => pr.1.env_var))
            (pySet (pairs.flatMap (fun pr => pr.2.flatMap (fun provider =>
              provider.missing_env_vars_to_configure pr.1 environ local_state ++
              provider.missing_env_vars_to_provide pr.1 environ local_state))))
            pairs false pairs2
            (by simpa [addMissingPass] using hpass)).1
        rw [← hout, hacc]
        rw [hacc] at hpass
        exact hpass

/-- Witness for the amended C7 theorem at the empty project, whose
expansion returns at once. -/
theorem expansion_result_is_fixed_point_witness :
    _add_missing_env_var_requirements proj0 [] [] 1 [] = ExpandOutcome.ok [] ∧
    addMissingPass proj0 [] [] [] = Except.ok ([], false) :=
  ⟨rfl, expansion_result_is_fixed_point proj0 [] [] 1 [] [] rfl⟩

/-- Helper: flatMap after map composes. -/
theorem flatMap_map_comp {α β γ : Type} (g : α → β) (f : β → List γ) :
    ∀ l : List α, (l.map g).flatMap f = l.flatMap (fun a => f (g a)) := by
  intro l
  induction l with
  | nil => rfl
  | cons a rest ih => simp [ih]

/-- Helper: a singleton-valued flatMap is a map. -/
theorem flatMap_singleton_eq_map {α β : Type} (f : α → β) :
    ∀ l : List α, l.flatMap (fun a => [f a]) = l.map f := by
  intro l
  induction l with
  | nil => rfl
  | cons a rest ih => simp [ih]

/-- `pySet` keeps a duplicate-free list of unseen names unchanged. -/
theorem pySetGo_of_nodup :
    ∀ (l seen : List String), l.Nodup → (∀ v ∈ l, seen.contains v = false) →
      pySetGo seen l = l := by
  intro l
  induction l with
  | nil => intro seen _ _; rfl
  | cons v rest ih =>
    intro seen hnd hun
    have hv : seen.contains v = false := hun v (List.mem_cons_self v rest)
    rw [pySetGo, hv]
    simp only [Bool.false_eq_true, if_false]
    have hnd2 : rest.Nodup := (List.nodup_cons.mp hnd).2
    have hvrest : v ∉ rest := (List.nodup_cons.mp hnd).1
    have hun2 : ∀ w ∈ rest, (v :: seen).contains w = false := by
      intro w hw
      have hsw : seen.contains w = false := hun w (List.mem_cons_of_mem v hw)
      simp only [List.contains_cons, hsw, Bool.or_false]
      exact beq_eq_false_iff_ne.mpr (fun hvw => hvrest (hvw ▸ hw))
    rw [ih (v :: seen) hnd2 hun2]

/-- The variable names reported during a pass over `chainPairs n`. -/
theorem chain_needed (n : Nat) :
    (chainPairs n).flatMap (fun pr => pr.2.flatMap (fun provider =>
        provider.missing_env_vars_to_configure pr.1 [] [] ++
        provider.missing_env_vars_to_provide pr.1 [] [])) =
      (List.range (n + 1)).map (fun i => xChain (i + 1)) := by
  rw [chainPairs, flatMap_map_comp]
  have : ∀ i : Nat,
      ((fun pr : Pair => pr.2.flatMap (fun provider =>
        provider.missing_env_vars_to_configure pr.1 [] [] ++
        provider.missing_env_vars_to_provide pr.1 [] []))
        ((reqGrow (xChain i), [provGrow]))) = [xChain (i + 1)] := by
    intro i
    simp [provGrow, reqGrow, xChain_succ]
  simp only [this]
  exact flatMap_singleton_eq_map (fun i => xChain (i + 1)) (List.range (n + 1))

/-- One expansion pass on the growing chain always creates exactly the
next requirement. -/
theorem chain_pass (n : Nat) :
    addMissingPass projGrow [] [] (chainPairs n) =
      Except.ok (chainPairs (n + 1), true) := by
  have hknown : (chainPairs n).map (fun pr => pr.1.env_var) =
      (List.range (n + 1)).map xChain := by
    simp [chainPairs, reqGrow]
  have hneeded := chain_needed n
  have hnodup : ((List.range (n + 1)).map (fun i => xChain (i + 1))).Nodup := by
    refine List.Nodup.map ?_ (List.nodup_range (n + 1))
    intro i j hij
    have := xChain_inj (i + 1) (j + 1) hij
    omega
  have hpyset : pySet ((List.range (n + 1)).map (fun i => xChain (i + 1))) =
      (List.range (n + 1)).map (fun i => xChain (i + 1)) := by
    exact pySetGo_of_nodup _ [] hnodup (fun v _ => rfl)
  rw [addMissingPass, hknown, hneeded, hpyset]
  have hsplit : (List.range (n + 1)).map (fun i => xChain (i + 1)) =
      (List.range n).map (fun i => xChain (i + 1)) ++ [xChain (n + 1)] := by
    rw [List.range_succ, List.map_append]
    rfl
  rw [hsplit]
  have hallknown : ∀ v ∈ (List.range n).map (fun i => xChain (i + 1)),
      ((List.range (n + 1)).map xChain).contains v = true := by
    intro v hv
    obtain ⟨i, hi, hvi⟩ := List.mem_map.mp hv
    have himem : i + 1 ∈ List.range (n + 1) :=
      List.mem_range.mpr (by exact Nat.succ_lt_succ (List.mem_range.mp hi))
    exact List.elem_iff.mpr (hvi ▸ List.mem_map.mpr ⟨i + 1, himem, rfl⟩)
  rw [addMissingGo_skip_known projGrow _ _ _ _ _ hallknown]
  have hunknown : ¬ ((List.range (n + 1)).map xChain).contains (xChain (n + 1)) = true := by
    intro hc
    obtain ⟨j, hj, hje⟩ := List.mem_map.mp (List.elem_iff.mp hc)
    have := xChain_inj j (n + 1) hje
    have := List.mem_range.mp hj
    omega
  rw [addMissingGo, if_neg hunknown]
  have hreg : projGrow.requirement_registry.find_by_env_var (xChain (n + 1)) =
      some (reqGrow (xChain (n + 1))) := rfl
  rw [hreg]
  have hchain : chainPairs n ++
      [(reqGrow (xChain (n + 1)),
        projGrow.find_providers (reqGrow (xChain (n + 1))))] =
      chainPairs (n + 1) := by
    rw [chainPairs, chainPairs]
    conv_rhs => rw [List.range_succ, List.map_append]
    rfl
  show addMissingGo projGrow ((List.range (n + 1)).map xChain) []
      (chainPairs n ++
        [(reqGrow (xChain (n + 1)),
          projGrow.find_providers (reqGrow (xChain (n + 1))))]) true =
    Except.ok (chainPairs (n + 1), true)
  rw [hchain]
  rfl

/-- The expansion on the growing chain is still recursing at every
depth. -/
theorem chain_diverges :
    ∀ (fuel n : Nat),
      _add_missing_env_var_requirements projGrow [] [] fuel (chainPairs n) =
        ExpandOutcome.diverge := by
  intro fuel
  induction fuel with
  | zero => intro n; rfl
  | succ fuel ih =>
    intro n
    rw [_add_missing_env_var_requirements, chain_pass n]
    simpa using ih (n + 1)

/-- Counterexample to C7 as stated: a project whose registry resolves
every name — the expansion never fails explicitly — while its providers
keep reporting one fresh variable per pass, so
`_add_missing_env_var_requirements` recurses forever: no recursion depth
ever returns.  The source has no iteration bound or visited-variable
guard. -/
theorem expansion_can_recurse_forever :
    ¬ expandTerminates projGrow [] [] (chainPairs 0) := by
  intro h
  obtain ⟨fuel, hne⟩ := h
  exact hne (chain_diverges fuel 0)

/-! ### Teardown (C8) -/

/-- The executed-command trace of one resource's shutdown run. -/
theorem runShutdownCommands_trace (exec : List String → Int) :
    ∀ commands : List (List String),
      (runShutdownCommands exec commands).2 =
        commands.map (fun c => (c, exec c)) := by
  intro commands
  induction commands with
  | nil => rfl
  | cons c rest ih => simp [runShutdownCommands, ih]

/-- Looking a name up after a `set_service_run_state`. -/
theorem lookupService_set :
    ∀ (cur : LocalState) (n : String) (v : ServiceState) (nm : String),
      lookupService (setServiceRunState cur n v) nm =
        if n = nm then some v else lookupService cur nm := by
  intro cur
  induction cur with
  | nil =>
    intro n v nm
    simp [setServiceRunState, lookupService]
  | cons kv rest ih =>
    intro n v nm
    obtain ⟨k, x⟩ := kv
    by_cases hkn : k = n
    · subst hkn
      rw [setServiceRunState, if_pos rfl]
      by_cases hknm : k = nm
      · rw [lookupService, if_pos hknm, if_pos hknm]
      · rw [lookupService, if_neg hknm, if_neg hknm, lookupService, if_neg hknm]
    · rw [setServiceRunState, if_neg hkn]
      by_cases hknm : k = nm
      · have hn : ¬ n = nm := fun h => hkn (hknm.trans h.symm)
        rw [lookupService, if_pos hknm, if_neg hn, lookupService, if_pos hknm]
      · rw [lookupService, if_neg hknm, ih n v nm, lookupService, if_neg hknm]

/-- The structural facts about the teardown loop: it executes every
tracked resource's shutdown commands in order whatever their exit codes,
its `i`-th `save()` persists the store with the first `i + 1` resources
cleared, the final store has every walked resource cleared, and the
function returns `None`. -/
theorem unprepareGo_spec (exec : List String → Int) :
    ∀ (l : List (String × ServiceState)) (cur : LocalState),
      (unprepareGo exec l cur).execTrace =
        l.flatMap (fun pr =>
          match pr.2.shutdown_commands with
          | none => []
          | some commands => commands.map (fun c => (c, exec c))) ∧
      (unprepareGo exec l cur).saves =
        (List.range l.length).map
          (fun i => clearFirst ((l.map Prod.fst).take (i + 1)) cur) ∧
      (unprepareGo exec l cur).final = clearFirst (l.map Prod.fst) cur ∧
      (unprepareGo exec l cur).returnValue = none := by
  intro l
  induction l with
  | nil =>
    intro cur
    exact ⟨rfl, rfl, rfl, rfl⟩
  | cons pr rest ih =>
    intro cur
    obtain ⟨name, state⟩ := pr
    obtain ⟨sc⟩ := state
    obtain ⟨ih1, ih2, ih3, ih4⟩ := ih (setServiceRunState cur name ⟨none⟩)
    rcases sc with _ | commands
    · refine ⟨?_, ?_, ?_, ?_⟩
      · simp only [unprepareGo, List.flatMap_cons]
        simpa using ih1
      · simp only [unprepareGo]
        rw [ih2, List.length_cons, List.range_succ_eq_map, List.map_cons,
          List.map_map]
        rfl
      · simp only [unprepareGo]
        rw [ih3]
        rfl
      · simpa only [unprepareGo] using ih4
    · refine ⟨?_, ?_, ?_, ?_⟩
      · simp only [unprepareGo, List.flatMap_cons]
        rw [runShutdownCommands_trace]
        simpa using ih1
      · simp only [unprepareGo]
        rw [ih2, List.length_cons, List.range_succ_eq_map, List.map_cons,
          List.map_map]
        rfl
      · simp only [unprepareGo]
        rw [ih3]
        rfl
      · simpa only [unprepareGo] using ih4

/-- Amended C8: teardown attempts the shutdown commands of every tracked
resource — a nonzero exit from one resource's command stops nothing —
and after attempting each resource (commands present or not, failed or
not) that resource's run-state entry is cleared and persisted
immediately; but the function returns `None` unconditionally: it reports
no overall failure indication even when a shutdown command exited
nonzero (the exit codes are only echoed to stdout). -/
theorem unprepare_attempts_all_clears_all_reports_nothing
    (exec : List String → Int) (local_state : LocalState) :
    (unprepare exec local_state).execTrace =
      local_state.flatMap (fun pr =>
        match pr.2.shutdown_commands with
        | none => []
        | some commands => commands.map (fun c => (c, exec c))) ∧
    (unprepare exec local_state).saves =
      (List.range local_state.length).map
        (fun i => clearFirst ((local_state.map Prod.fst).take (i + 1)) local_state) ∧
    (unprepare exec local_state).final =
      clearFirst (local_state.map Prod.fst) local_state ∧
    (∀ pr ∈ local_state,
      lookupService (unprepare exec local_state).final pr.1 = some ⟨none⟩) ∧
    (unprepare exec local_state).returnValue = none := by
  obtain ⟨h1, h2, h3, h4⟩ := unprepareGo_spec exec local_state local_state
  refine ⟨h1, h2, h3, ?_, h4⟩
  intro pr hpr
  rw [unprepare, h3]
  have hmem : pr.1 ∈ local_state.map Prod.fst := List.mem_map_of_mem Prod.fst hpr
  clear h1 h2 h3 h4 hpr
  generalize local_state.map Prod.fst = names at hmem
  induction names generalizing local_state with
  | nil => simp at hmem
  | cons n rest ih =>
    rcases List.mem_cons.mp hmem with h | h
    · subst h
      show lookupService
        (clearFirst rest (setServiceRunState local_state pr.1 ⟨none⟩)) pr.1 = _
      have hbase : lookupService (setServiceRunState local_state pr.1 ⟨none⟩) pr.1 =
          some ⟨none⟩ := by
        rw [lookupService_set, if_pos rfl]
      clear hmem ih
      generalize setServiceRunState local_state pr.1 ⟨none⟩ = cur at hbase ⊢
      induction rest generalizing cur with
      | nil => exact hbase
      | cons m mrest ih2 =>
        show lookupService (clearFirst mrest (setServiceRunState cur m ⟨none⟩)) pr.1 = _
        refine ih2 (setServiceRunState cur m ⟨none⟩) ?_
        rw [lookupService_set]
        by_cases hm : m = pr.1
        · rw [if_pos hm]
        · rw [if_neg hm]
          exact hbase
    · exact ih (setServiceRunState local_state n ⟨none⟩) h

/-- Witness for the amended C8 theorem at the two-resource scenario. -/
theorem unprepare_attempts_witness :
    ("s1", (⟨some [["false"]]⟩ : ServiceState)) ∈ ls0 ∧
    lookupService (unprepare exec0 ls0).final "s1" = some ⟨none⟩ :=
  ⟨by decide,
    (unprepare_attempts_all_clears_all_reports_nothing exec0 ls0).2.2.2.1
      ("s1", ⟨some [["false"]]⟩) (by decide)⟩

/-- Counterexample to C8 as stated: in the two-resource scenario one
shutdown command exits 1, both resources are still attempted, yet
`unprepare` reports no overall failure — it returns `None` (the source
has no `return` statement), not a failure value, and writes nothing to
the error channel. -/
theorem unprepare_failure_not_reported :
    (unprepare exec0 ls0).execTrace = [(["false"], 1), (["echo", "ok"], 0)] ∧
    (unprepare exec0 ls0).returnValue = none ∧
    ¬ (unprepare exec0 ls0).returnValue = some false := by
  refine ⟨by decide, rfl, ?_⟩
  intro h
  rw [show (unprepare exec0 ls0).returnValue = none from rfl] at h
  exact Option.noConfusion h

/-! ### Environment commit lemmas (C1) -/

/-- A set key reads back as set. -/
theorem envGet_envSet_self :
    ∀ (e : Environ) (k v : String), envGet (envSet e k v) k = some v := by
  intro e
  induction e with
  | nil => intro k v; simp [envSet, envGet]
  | cons kv rest ih =>
    intro k v
    obtain ⟨k0, v0⟩ := kv
    by_cases hk : k0 = k
    · rw [envSet, if_pos hk, envGet, if_pos hk]
    · rw [envSet, if_neg hk, envGet, if_neg hk]
      exact ih k v

/-- Setting one key does not disturb another. -/
theorem envGet_envSet_other :
    ∀ (e : Environ) (k2 v k : String), k2 ≠ k →
      envGet (envSet e k2 v) k = envGet e k := by
  intro e
  induction e with
  | nil =>
    intro k2 v k hne
    simp [envSet, envGet, hne]
  | cons kv rest ih =>
    intro k2 v k hne
    obtain ⟨k0, v0⟩ := kv
    by_cases hk : k0 = k2
    · rw [envSet, if_pos hk, envGet, envGet]
      have : ¬ k0 = k := fun h => hne (hk ▸ h)
      rw [if_neg this, if_neg this]
    · rw [envSet, if_neg hk, envGet, envGet]
      by_cases hk0 : k0 = k
      · rw [if_pos hk0, if_pos hk0]
      · rw [if_neg hk0, if_neg hk0]
        exact ih k2 v k hne

/-- `set_vars` unfolded one binding at a time. -/
theorem set_vars_cons (k0 v0 : String) (rest : Environ) (environ : Environ) :
    set_vars ((k0, v0) :: rest) environ =
      set_vars rest
        (if envGet environ k0 ≠ some v0 then envSet environ k0 v0 else environ) := by
  rfl

/-- Keys not bound in the copy are untouched by the commit. -/
theorem set_vars_not_mem :
    ∀ (copy : Environ) (environ : Environ) (k : String),
      (∀ kv ∈ copy, kv.1 ≠ k) →
      envGet (set_vars copy environ) k = envGet environ k := by
  intro copy
  induction copy with
  | nil => intro environ k _; rfl
  | cons kv rest ih =>
    intro environ k hk
    obtain ⟨k0, v0⟩ := kv
    rw [set_vars_cons]
    have hk0 : k0 ≠ k := hk (k0, v0) (List.mem_cons_self _ _)
    rw [ih _ k (fun kv hkv => hk kv (List.mem_cons_of_mem _ hkv))]
    by_cases hcond : envGet environ k0 ≠ some v0
    · rw [if_pos hcond]
      exact envGet_envSet_other environ k0 v0 k hk0
    · rw [if_neg hcond]

/-- Every binding of the working copy survives the `set_vars` commit:
after the commit the caller's environment maps each copied key to its
copy value. -/
theorem set_vars_copies :
    ∀ (copy : Environ) (environ : Environ) (k v : String),
      (copy.map Prod.fst).Nodup →
      envGet copy k = some v →
      envGet (set_vars copy environ) k = some v := by
  intro copy
  induction copy with
  | nil => intro environ k v _ hget; simp [envGet] at hget
  | cons kv rest ih =>
    intro environ k v hnd hget
    obtain ⟨k0, v0⟩ := kv
    rw [List.map_cons, List.nodup_cons] at hnd
    rw [set_vars_cons]
    by_cases hk : k0 = k
    · subst hk
      rw [envGet, if_pos rfl] at hget
      have hv : v0 = v := by simpa using hget
      subst hv
      have hrest : ∀ kv ∈ rest, kv.1 ≠ k0 := by
        intro kv hkv heq
        exact hnd.1 (List.mem_map.mpr ⟨kv, hkv, heq⟩)
      rw [set_vars_not_mem rest _ k0 hrest]
      by_cases hcond : envGet environ k0 ≠ some v0
      · rw [if_pos hcond]
        exact envGet_envSet_self environ k0 v0
      · rw [if_neg hcond]
        simpa using hcond
    · rw [envGet, if_neg hk] at hget
      exact ih _ k v hnd.2 hget

/-- Every stage built by `_process_requirements_and_providers` is free
of `set_vars` continuations. -/
theorem process_stage_noSetVars (environ : Environ) (local_state : LocalState)
    (pairs : List Pair) (stage : Stage)
    (h : _process_requirements_and_providers environ local_state pairs =
      some stage) :
    noSetVars stage = true := by
  rw [_process_requirements_and_providers] at h
  rcases hpart : _partition_first_group_to_configure environ local_state pairs
      with _ | ⟨initial, remaining⟩
  · simp only [hpart] at h
    exact absurd h (by simp)
  · simp only [hpart] at h
    by_cases h1 : 0 < initial.length ∧ 0 < remaining.length
    · rw [if_pos h1] at h
      simp only [Option.some.injEq] at h
      subst h
      rfl
    · rw [if_neg h1] at h
      by_cases h2 : 0 < initial.length
      · rw [if_pos h2] at h
        simp only [Option.some.injEq] at h
        subst h
        rfl
      · rw [if_neg h2] at h
        simp only [Option.some.injEq] at h
        subst h
        rfl

/-- Executing a stage without `set_vars` continuations never touches the
caller's environment and only yields successors without `set_vars`
continuations. -/
theorem executeStage_noSetVars (local_state : LocalState) :
    ∀ (stage : Stage) (st : PrepState) (r : ExecResult),
      noSetVars stage = true →
      executeStage local_state stage st = some r →
      r.state.environ = st.environ ∧
      (∀ s2, r.next = some s2 → noSetVars s2 = true) := by
  intro stage
  induction stage with
  | functionConfigure pairs =>
    intro st r _ h
    rw [executeStage] at h
    simp only [Option.some.injEq] at h
    subst h
    exact ⟨rfl, by intro s2 hs2; simp only [Option.some.injEq] at hs2; rw [← hs2]; rfl⟩
  | functionProvide pairs =>
    intro st r _ h
    rw [executeStage] at h
    rcases hrun : provideStageRun local_state pairs st.environ_copy
        with _ | ⟨environ2, events, failed⟩
    · simp only [hrun] at h
      exact absurd h (by simp)
    · simp only [hrun, Option.some.injEq] at h
      subst h
      exact ⟨rfl, by intro s2 hs2; exact absurd hs2 (by simp)⟩
  | andThen inner k ihInner =>
    intro st r hns h
    rw [noSetVars, Bool.and_eq_true] at hns
    rcases k with pairs | _
    · rw [executeStage] at h
      rcases hinner : executeStage local_state inner st with _ | r0
      · simp only [hinner] at h
        exact absurd h (by simp)
      · simp only [hinner] at h
        obtain ⟨henv0, hsucc0⟩ := ihInner st r0 hns.1 hinner
        rcases hnext : r0.next with _ | nxt
        · simp only [hnext] at h
          by_cases hf : r0.failed
          · rw [if_pos (by rw [hf])] at h
            simp only [Option.some.injEq] at h
            subst h
            exact ⟨henv0, by intro s2 hs2; exact absurd hs2 (by simp)⟩
          · rw [if_neg (by simpa using hf)] at h
            rw [executeCont] at h
            rcases hproc : _process_requirements_and_providers
                r0.state.environ_copy local_state pairs with _ | stg
            · simp only [hproc] at h
              exact absurd h (by simp)
            · simp only [hproc, Option.some.injEq] at h
              subst h
              refine ⟨henv0, ?_⟩
              intro s2 hs2
              simp only [Option.some.injEq] at hs2
              rw [← hs2]
              exact process_stage_noSetVars _ _ _ _ hproc
        · simp only [hnext, Option.some.injEq] at h
          subst h
          refine ⟨henv0, ?_⟩
          intro s2 hs2
          simp only [Option.some.injEq] at hs2
          rw [← hs2, noSetVars, Bool.and_eq_true]
          exact ⟨hsucc0 nxt hnext, rfl⟩
    · exact absurd hns.2 (by simp [contNoSetVars])

/-- Executing the outer `set_vars`-wrapped chain stage does one of three
things: yield a successor still wrapped with `set_vars` leaving the
caller's environment alone, stop on failure leaving the caller's
environment alone, or — only when the inner chain finished without
failure — run the `set_vars` commit. -/
theorem executeStage_andThen_setVars (local_state : LocalState) (inner : Stage)
    (st : PrepState) (r : ExecResult)
    (hns : noSetVars inner = true)
    (h : executeStage local_state (Stage.andThen inner PrepCont.setVars) st =
      some r) :
    (∃ nxt, r.next = some (Stage.andThen nxt PrepCont.setVars) ∧
      noSetVars nxt = true ∧ r.state.environ = st.environ) ∨
    (r.failed = true ∧ r.next = none ∧ r.state.environ = st.environ) ∨
    (r.failed = false ∧ r.next = none ∧
      r.state.environ = set_vars r.state.environ_copy st.environ) := by
  rw [executeStage] at h
  rcases hinner : executeStage local_state inner st with _ | r0
  · simp only [hinner] at h
    exact absurd h (by simp)
  · simp only [hinner] at h
    obtain ⟨henv0, hsucc0⟩ :=
      executeStage_noSetVars local_state inner st r0 hns hinner
    rcases hnext : r0.next with _ | nxt
    · simp only [hnext] at h
      by_cases hf : r0.failed = true
      · rw [if_pos (by rw [hf])] at h
        simp only [Option.some.injEq] at h
        subst h
        exact Or.inr (Or.inl ⟨rfl, rfl, henv0⟩)
      · rw [if_neg (by simpa using hf)] at h
        rw [executeCont] at h
        simp only [Option.some.injEq] at h
        subst h
        refine Or.inr (Or.inr ⟨by simpa using hf, rfl, ?_⟩)
        show set_vars r0.state.environ_copy r0.state.environ =
          set_vars r0.state.environ_copy st.environ
        rw [henv0]
    · simp only [hnext, Option.some.injEq] at h
      subst h
      exact Or.inl ⟨nxt, rfl, hsucc0 nxt hnext, henv0⟩

/-- Driving the `set_vars`-wrapped chain: a failed run leaves the
caller's environment exactly as it started; a successful run ends with
the caller's environment being the `set_vars` commit of the final
working copy into the starting environment. -/
theorem runStages_commit (local_state : LocalState) (uiOk : Bool) :
    ∀ (fuel : Nat) (inner : Stage) (st : PrepState) (ok : Bool) (st2 : PrepState),
      noSetVars inner = true →
      runStages local_state uiOk fuel
        (some (Stage.andThen inner PrepCont.setVars)) st = some (ok, st2) →
      (ok = false → st2.environ = st.environ) ∧
      (ok = true → st2.environ = set_vars st2.environ_copy st.environ) := by
  intro fuel
  induction fuel with
  | zero =>
    intro inner st ok st2 _ h
    exact absurd h (by rw [runStages]; simp)
  | succ fuel ih =>
    intro inner st ok st2 hns h
    rw [runStages] at h
    by_cases hui : uiOk = true
    · rw [if_pos hui] at h
      rcases hexec : executeStage local_state
          (Stage.andThen inner PrepCont.setVars) st with _ | r
      · simp only [hexec] at h
        exact absurd h (by simp)
      · simp only [hexec] at h
        rcases executeStage_andThen_setVars local_state inner st r hns hexec
          with ⟨nxt, hn, hnsnxt, henv⟩ | ⟨hf, hn, henv⟩ | ⟨hf, hn, henv⟩
        · by_cases hf : r.failed = true
          · rw [if_pos (by rw [hf])] at h
            simp only [Option.some.injEq, Prod.mk.injEq] at h
            refine ⟨fun _ => ?_, fun hok => absurd (h.1.trans hok) (by simp)⟩
            rw [← h.2, henv]
          · rw [if_neg (by simpa using hf), hn] at h
            obtain ⟨c1, c2⟩ := ih nxt r.state ok st2 hnsnxt h
            refine ⟨fun hok => ?_, fun hok => ?_⟩
            · rw [c1 hok, henv]
            · rw [c2 hok, henv]
        · rw [if_pos (by rw [hf])] at h
          simp only [Option.some.injEq, Prod.mk.injEq] at h
          refine ⟨fun _ => ?_, fun hok => absurd (h.1.trans hok) (by simp)⟩
          rw [← h.2, henv]
        · rw [if_neg (by simp [hf]), hn] at h
          rw [runStages] at h
          simp only [Option.some.injEq, Prod.mk.injEq] at h
          refine ⟨fun hok => absurd (h.1.trans hok) (by simp), fun _ => ?_⟩
          rw [← h.2, henv]
    · rw [if_neg (by simpa using hui)] at h
      exact absurd h (by simp)

/-- `prepare_in_stages` always returns the stage chain wrapped in the
single `set_vars` commit continuation, with the working copy being the
deep copy of the caller's environment plus the injected `PROJECT_DIR`. -/
theorem prepare_in_stages_shape (project : Project) (environ : Environ)
    (local_state : LocalState) (expandFuel : Nat) (stage : Stage)
    (copy0 : Environ)
    (h : prepare_in_stages project environ local_state expandFuel =
      some (stage, copy0)) :
    ∃ first, stage = Stage.andThen first PrepCont.setVars ∧
      noSetVars first = true ∧
      copy0 = envSet environ "PROJECT_DIR" project.directory_path := by
  rw [prepare_in_stages] at h
  rcases hexp : _add_missing_env_var_requirements project environ local_state
      expandFuel (project.requirements.map
        (fun requirement => (requirement, project.find_providers requirement)))
      with pairs | v | _
  · simp only [hexp] at h
    rcases hproc : _process_requirements_and_providers
        (envSet environ "PROJECT_DIR" project.directory_path) local_state pairs
        with _ | first
    · simp only [hproc] at h
      exact absurd h (by simp)
    · simp only [hproc, Option.some.injEq, Prod.mk.injEq] at h
      exact ⟨first, h.1.symm, process_stage_noSetVars _ _ _ _ hproc, h.2.symm⟩
  · simp only [hexp] at h
    exact absurd h (by simp)
  · simp only [hexp] at h
    exact absurd h (by simp)

/-- C1: `prepare` mutates the caller's environment only on overall
success.  When it returns `False` — some executed stage had its `failed`
flag set — the caller-visible environment is exactly what it was before
the call; when it returns `True`, the caller's environment is the
`set_vars` commit of the final working copy, so every key whose value in
the deep-copied working environment is new or changed (the injected
`PROJECT_DIR` included) is copied back into the caller's environment. -/
theorem prepare_commits_only_on_overall_success (project : Project)
    (environ : Environ) (local_state : LocalState) (ui_mode : String)
    (expandFuel stageFuel : Nat) (success : Bool)
    (environ2 environ_copy2 : Environ) (events : List OutEvent)
    (h : prepare project environ local_state ui_mode expandFuel stageFuel =
      PrepareResult.ok success environ2 environ_copy2 events) :
    (success = false → environ2 = environ) ∧
    (success = true →
      environ2 = set_vars environ_copy2 environ ∧
      ((environ_copy2.map Prod.fst).Nodup →
        ∀ k v, envGet environ_copy2 k = some v → envGet environ k ≠ some v →
          envGet environ2 k = some v)) := by
  rw [prepare] at h
  by_cases hc : _all_ui_modes.contains ui_mode
  · simp only [hc, Bool.not_true, Bool.false_eq_true, if_false] at h
    rcases hpis : prepare_in_stages project environ local_state expandFuel
        with _ | ⟨stage, copy0⟩
    · simp only [hpis] at h
      exact absurd h (by simp)
    · simp only [hpis] at h
      obtain ⟨first, hstage, hns, hcopy0⟩ :=
        prepare_in_stages_shape project environ local_state expandFuel stage
          copy0 hpis
      rcases hrun : runStages local_state (decide (ui_mode ≠ UI_MODE_TEXT))
          stageFuel (some stage) ⟨environ, copy0, []⟩ with _ | ⟨succ2, st⟩
      · simp only [hrun] at h
        exact absurd h (by simp)
      · simp only [hrun, PrepareResult.ok.injEq] at h
        obtain ⟨hsucc, henv2, hcopy2, _⟩ := h
        rw [hstage] at hrun
        obtain ⟨cfail, cok⟩ := runStages_commit local_state
          (decide (ui_mode ≠ UI_MODE_TEXT)) stageFuel first
          ⟨environ, copy0, []⟩ succ2 st hns hrun
        constructor
        · intro hf
          rw [← henv2]
          exact cfail (hsucc.trans hf)
        · intro ht
          have heq : st.environ = set_vars st.environ_copy environ :=
            cok (hsucc.trans ht)
          have henveq : environ2 = set_vars environ_copy2 environ := by
            rw [← henv2, ← hcopy2]
            exact heq
          refine ⟨henveq, ?_⟩
          intro hnd k v hget _
          rw [henveq]
          exact set_vars_copies environ_copy2 environ k v hnd hget
  · simp only [hc] at h
    exact absurd h (by simp)

/-- Witness for C1 at a concrete successful run over the empty project:
the injected `PROJECT_DIR` is committed back to the caller. -/
theorem prepare_commits_only_on_overall_success_witness :
    prepare proj0 [("A", "1")] [] UI_MODE_NOT_INTERACTIVE 3 10 =
      PrepareResult.ok true [("A", "1"), ("PROJECT_DIR", "/p0")]
        [("A", "1"), ("PROJECT_DIR", "/p0")] [] ∧
    envGet [("A", "1"), ("PROJECT_DIR", "/p0")] "PROJECT_DIR" = some "/p0" :=
  ⟨rfl,
    ((prepare_commits_only_on_overall_success proj0 [("A", "1")] []
        UI_MODE_NOT_INTERACTIVE 3 10 true
        [("A", "1"), ("PROJECT_DIR", "/p0")]
        [("A", "1"), ("PROJECT_DIR", "/p0")] [] rfl).2 rfl).2
      (by decide) "PROJECT_DIR" "/p0" (by decide) (by decide)⟩

/-! ### Expansion environment choice (C9) -/

/-- C9: `prepare_in_stages` (line 320 of prepare.py) runs the transitive
requirement expansion against the caller's original environment, not the
deep-copied working environment.  `provMain` reports `"NEEDED"` as
missing exactly when `PROJECT_DIR` is absent: the expansion the engine
actually performs (first conjunct, original environment without
`PROJECT_DIR`) synthesizes the `NEEDED` requirement, whereas the same
expansion against the working copy (second conjunct) would add nothing —
the variable present only in the copy is still treated as missing.  The
full `prepare` run (third conjunct) then succeeds with `NEEDED=yes`
provided and committed, which is only possible because partitioning,
ordering and provide execution saw the working copy's `PROJECT_DIR`
while the expansion did not. -/
theorem expansion_queries_original_environment :
    _add_missing_env_var_requirements proj9 [("HOME", "/h")] [] 5
        [(reqMain, [provMain])] =
      ExpandOutcome.ok [(reqMain, [provMain]), (reqNeeded, [provNeeded])] ∧
    _add_missing_env_var_requirements proj9
        (envSet [("HOME", "/h")] "PROJECT_DIR" "/proj9") [] 5
        [(reqMain, [provMain])] =
      ExpandOutcome.ok [(reqMain, [provMain])] ∧
    prepare proj9 [("HOME", "/h")] [] UI_MODE_NOT_INTERACTIVE 5 10 =
      PrepareResult.ok true
        [("HOME", "/h"), ("PROJECT_DIR", "/proj9"), ("NEEDED", "yes")]
        [("HOME", "/h"), ("PROJECT_DIR", "/proj9"), ("NEEDED", "yes")] [] :=
  ⟨rfl, rfl, rfl⟩

/-! ### Topological-sort lemmas (C2) -/

/-- `keyIdx` over a cons whose head is the key. -/
theorem keyIdx_cons_self (k : String) (ks : List String) :
    keyIdx k (k :: ks) = 0 := by
  rw [keyIdx, if_pos rfl]

/-- `keyIdx` over a cons whose head differs from the key. -/
theorem keyIdx_cons_ne (k0 k : String) (ks : List String) (h : k0 ≠ k) :
    keyIdx k (k0 :: ks) = keyIdx k ks + 1 := by
  rw [keyIdx, if_neg h]

/-- `keyIdx` across an append. -/
theorem keyIdx_append (k : String) :
    ∀ ks1 ks2 : List String,
      keyIdx k (ks1 ++ ks2) =
        if k ∈ ks1 then keyIdx k ks1 else ks1.length + keyIdx k ks2 := by
  intro ks1
  induction ks1 with
  | nil => intro ks2; simp [keyIdx]
  | cons k0 rest ih =>
    intro ks2
    by_cases hk : k0 = k
    · subst hk
      rw [List.cons_append, keyIdx_cons_self, keyIdx_cons_self,
        if_pos (List.mem_cons_self k0 rest)]
    · rw [List.cons_append, keyIdx_cons_ne k0 k _ hk, keyIdx_cons_ne k0 k _ hk,
        ih ks2]
      by_cases hmem : k ∈ rest
      · rw [if_pos hmem, if_pos (List.mem_cons_of_mem k0 hmem)]
      · rw [if_neg hmem]
        have : ¬ k ∈ k0 :: rest := by
          intro hx
          rcases List.mem_cons.mp hx with h1 | h2
          · exact hk h1.symm
          · exact hmem h2
        rw [if_neg this, List.length_cons]
        omega

/-- A present key's index is below the list length. -/
theorem keyIdx_lt_length (k : String) :
    ∀ ks : List String, k ∈ ks → keyIdx k ks < ks.length := by
  intro ks
  induction ks with
  | nil => intro h; simp at h
  | cons k0 rest ih =>
    intro h
    by_cases hk : k0 = k
    · subst hk
      rw [keyIdx_cons_self]
      simp
    · rcases List.mem_cons.mp h with h1 | h2
      · exact absurd h1.symm hk
      · rw [keyIdx_cons_ne k0 k rest hk, List.length_cons]
        exact Nat.succ_lt_succ (ih h2)

/-- An absent key's index is at least the list length. -/
theorem keyIdx_ge_length_of_not_mem (k : String) :
    ∀ ks : List String, ¬ k ∈ ks → ks.length ≤ keyIdx k ks := by
  intro ks
  induction ks with
  | nil => intro _; simp [keyIdx]
  | cons k0 rest ih =>
    intro h
    have hk : k0 ≠ k := fun he => h (he ▸ List.mem_cons_self k0 rest)
    rw [keyIdx_cons_ne k0 k rest hk, List.length_cons]
    have : ¬ k ∈ rest := fun hm => h (List.mem_cons_of_mem k0 hm)
    exact Nat.succ_le_succ (ih this)

/-- Deleting an element neither key names preserves the relative order
of two keys. -/
theorem keyIdx_erase_middle (k k' k0 : String) (ks1 ks2 : List String)
    (hk : k ≠ k0) (hk' : k' ≠ k0)
    (h : keyIdx k (ks1 ++ k0 :: ks2) < keyIdx k' (ks1 ++ k0 :: ks2)) :
    keyIdx k (ks1 ++ ks2) < keyIdx k' (ks1 ++ ks2) := by
  rw [keyIdx_append, keyIdx_append] at h
  rw [keyIdx_append, keyIdx_append]
  have e1 : keyIdx k (k0 :: ks2) = keyIdx k ks2 + 1 :=
    keyIdx_cons_ne k0 k ks2 (fun he => hk he.symm)
  have e2 : keyIdx k' (k0 :: ks2) = keyIdx k' ks2 + 1 :=
    keyIdx_cons_ne k0 k' ks2 (fun he => hk' he.symm)
  by_cases hm : k ∈ ks1
  · rw [if_pos hm] at h
    rw [if_pos hm]
    by_cases hm' : k' ∈ ks1
    · rw [if_pos hm'] at h
      rw [if_pos hm']
      exact h
    · rw [if_neg hm'] at h
      rw [if_neg hm']
      have := keyIdx_lt_length k ks1 hm
      omega
  · rw [if_neg hm, e1] at h
    rw [if_neg hm]
    by_cases hm' : k' ∈ ks1
    · rw [if_pos hm'] at h
      rw [if_pos hm']
      have := keyIdx_lt_length k' ks1 hm'
      omega
    · rw [if_neg hm', e2] at h
      rw [if_neg hm']
      omega

/-- What a successful `extractFirst` tells us: the extracted element is
the first one satisfying the check, and the remainder is everything else
in original order. -/
theorem extractFirst_spec (check : Pair → Bool) :
    ∀ (l : List Pair) (p : Pair) (rest : List Pair),
      extractFirst check l = some (p, rest) →
      ∃ l1 l2, l = l1 ++ p :: l2 ∧ rest = l1 ++ l2 ∧ check p = true ∧
        ∀ q ∈ l1, check q = false := by
  intro l
  induction l with
  | nil => intro p rest h; exact absurd h (by rw [extractFirst]; simp)
  | cons x rest0 ih =>
    intro p rest h
    rw [extractFirst] at h
    by_cases hx : check x = true
    · rw [if_pos hx] at h
      simp only [Option.some.injEq, Prod.mk.injEq] at h
      exact ⟨[], rest0, by rw [← h.1]; rfl, by rw [← h.2]; rfl, h.1 ▸ hx,
        by intro q hq; simp at hq⟩
    · rw [if_neg hx] at h
      rcases hrec : extractFirst check rest0 with _ | ⟨q, rest2⟩
      · rw [hrec] at h
        exact absurd h (by simp)
      · rw [hrec] at h
        simp only [Option.some.injEq, Prod.mk.injEq] at h
        obtain ⟨l1, l2, he1, he2, hcq, hall⟩ := ih q rest2 hrec
        refine ⟨x :: l1, l2, ?_, ?_, h.1 ▸ hcq, ?_⟩
        · rw [List.cons_append, he1, h.1]
        · rw [← h.2, he2]
          rfl
        · intro z hz
          rcases List.mem_cons.mp hz with h1 | h2
          · rw [h1]
            simpa using hx
          · exact hall z h2

/-- Keys of an append-with-middle decomposition. -/
theorem keysOf_append_cons (l1 : List Pair) (p : Pair) (l2 : List Pair) :
    keysOf (l1 ++ p :: l2) = keysOf l1 ++ nodeKey p :: keysOf l2 := by
  simp [keysOf]

/-- Keys of an append. -/
theorem keysOf_append (l1 l2 : List Pair) :
    keysOf (l1 ++ l2) = keysOf l1 ++ keysOf l2 := by
  simp [keysOf]

/-- Removing one pair keeps the key list duplicate-free. -/
theorem nodup_keys_of_extract (l1 : List Pair) (p : Pair) (l2 : List Pair)
    (hnd : (keysOf (l1 ++ p :: l2)).Nodup) : (keysOf (l1 ++ l2)).Nodup := by
  rw [keysOf_append_cons] at hnd
  rw [keysOf_append]
  exact List.Sublist.nodup
    ((List.append_sublist_append_left (keysOf l1)).mpr
      (List.sublist_cons_self (nodeKey p) (keysOf l2))) hnd

/-- Two pairs of a duplicate-free list with the same key are the same
pair. -/
theorem nodeKey_inj_of_nodup (l : List Pair) (hnd : (keysOf l).Nodup)
    (a : Pair) (ha : a ∈ l) (b : Pair) (hb : b ∈ l)
    (h : nodeKey a = nodeKey b) : a = b := by
  rw [keysOf] at hnd
  exact List.inj_on_of_nodup_map hnd ha hb h

/-- Readiness is monotone under shrinking the blocking key set. -/
theorem isReady_mono (getter : Getter) (environ : Environ)
    (local_state : LocalState) (ks ks2 : List String) (p : Pair)
    (hsub : ∀ d, d ∈ ks2 → d ∈ ks)
    (h : isReady getter environ local_state ks p = true) :
    isReady getter environ local_state ks2 p = true := by
  rw [isReady, List.all_eq_true] at h ⊢
  intro d hd
  have hx := h d hd
  by_cases h1 : envMem environ d = true
  · rw [h1]
    rfl
  · have h1f : envMem environ d = false := by simpa using h1
    rw [h1f] at hx
    have h2 : ks.contains d = false := by simpa using hx
    have hnot : ¬ d ∈ ks := by
      intro hm
      have hc : ks.contains d = true := List.elem_iff.mpr hm
      rw [hc] at h2
      exact absurd h2 (by simp)
    have hnot2 : ks2.contains d = false := by
      rcases hcon : ks2.contains d
      · rfl
      · exact absurd (hsub d (List.elem_iff.mp hcon)) hnot
    rw [h1f, hnot2]
    simp

/-- A ready pair has no unsatisfied dependency among the given keys. -/
theorem ready_no_dep_in_keys (getter : Getter) (environ : Environ)
    (local_state : LocalState) (ks : List String) (p : Pair) (d : String)
    (hready : isReady getter environ local_state ks p = true)
    (hd : d ∈ depKeys getter environ local_state p)
    (henv : envMem environ d = false) : ¬ d ∈ ks := by
  intro hmem
  rw [isReady, List.all_eq_true] at hready
  have hx := hready d hd
  have hc : ks.contains d = true := List.elem_iff.mpr hmem
  rw [henv, hc] at hx
  simp at hx

/-- A pair of the step's list other (by key) than the extracted pair is
in the remainder. -/
theorem mem_rest_of_ne_key (l1 l2 : List Pair) (p a : Pair)
    (ha : a ∈ l1 ++ p :: l2) (hne : nodeKey a ≠ nodeKey p) : a ∈ l1 ++ l2 := by
  rcases List.mem_append.mp ha with h1 | h2
  · exact List.mem_append.mpr (Or.inl h1)
  · rcases List.mem_cons.mp h2 with h3 | h4
    · exact absurd (by rw [h3]) hne
    · exact List.mem_append.mpr (Or.inr h4)

/-- Edge correctness of the modelled toposort: whenever a pair `a`
depends on the variable supplied by pair `b` (and that variable is not
already in the environment), `b`'s key comes strictly before `a`'s key
in the output order. -/
theorem toposortGo_edge_order (getter : Getter) (environ : Environ)
    (local_state : LocalState) :
    ∀ (fuel : Nat) (l out : List Pair),
      (keysOf l).Nodup →
      toposortGo getter environ local_state fuel l = some out →
      ∀ a ∈ l, ∀ b ∈ l,
        nodeKey b ∈ depKeys getter environ local_state a →
        envMem environ (nodeKey b) = false →
        keyIdx (nodeKey b) (keysOf out) < keyIdx (nodeKey a) (keysOf out) := by
  intro fuel
  induction fuel with
  | zero =>
    intro l out hnd h a ha b hb hdep henv
    cases l with
    | nil => simp at ha
    | cons x l0 => exact absurd h (by rw [toposortGo]; simp)
  | succ fuel ih =>
    intro l out hnd h a ha b hb hdep henv
    cases l with
    | nil => simp at ha
    | cons x l0 =>
      rw [toposortGo] at h
      rcases hext : extractFirst (isReady getter environ local_state
          (keysOf (x :: l0))) (x :: l0) with _ | ⟨p, rest⟩
      · simp only [hext] at h
        exact absurd h (by simp)
      · simp only [hext] at h
        rcases hrec : toposortGo getter environ local_state fuel rest
            with _ | out'
        · simp only [hrec, Option.map_none'] at h
          exact absurd h (by simp)
        · simp only [hrec, Option.map_some'] at h
          have hout : out = p :: out' := by
            simpa using h.symm
          subst hout
          obtain ⟨l1, l2, hl, hrest, hcp, _⟩ :=
            extractFirst_spec _ _ p rest hext
          have hpmem : p ∈ x :: l0 := by
            rw [hl]
            exact List.mem_append.mpr (Or.inr (List.mem_cons_self p l2))
          by_cases hap : nodeKey a = nodeKey p
          · have haep : a = p :=
              nodeKey_inj_of_nodup (x :: l0) hnd a ha p hpmem hap
            have hnodep := ready_no_dep_in_keys getter environ local_state
              (keysOf (x :: l0)) p (nodeKey b) hcp (haep ▸ hdep) henv
            exact absurd (by rw [keysOf]; exact List.mem_map_of_mem nodeKey hb)
              hnodep
          · by_cases hbp : nodeKey b = nodeKey p
            · show keyIdx (nodeKey b) (nodeKey p :: keysOf out') <
                keyIdx (nodeKey a) (nodeKey p :: keysOf out')
              rw [← hbp, keyIdx_cons_self,
                keyIdx_cons_ne (nodeKey b) (nodeKey a) (keysOf out')
                  (fun he => hap (he.symm.trans hbp))]
              omega
            · have ha2 : a ∈ rest := by
                rw [hrest]
                exact mem_rest_of_ne_key l1 l2 p a (hl ▸ ha) hap
              have hb2 : b ∈ rest := by
                rw [hrest]
                exact mem_rest_of_ne_key l1 l2 p b (hl ▸ hb) hbp
              have hnd2 : (keysOf rest).Nodup := by
                rw [hrest]
                exact nodup_keys_of_extract l1 p l2 (hl ▸ hnd)
              have hlt := ih rest out' hnd2 hrec a ha2 b hb2 hdep henv
              show keyIdx (nodeKey b) (nodeKey p :: keysOf out') <
                keyIdx (nodeKey a) (nodeKey p :: keysOf out')
              rw [keyIdx_cons_ne (nodeKey p) (nodeKey b) (keysOf out')
                  (fun he => hbp he.symm),
                keyIdx_cons_ne (nodeKey p) (nodeKey a) (keysOf out')
                  (fun he => hap he.symm)]
              omega

/-- In a duplicate-free append-with-middle, the middle key does not
occur on the left. -/
theorem not_mem_left_of_nodup_append_cons (ks1 ks2 : List String) (k0 : String)
    (hnd : (ks1 ++ k0 :: ks2).Nodup) : ¬ k0 ∈ ks1 := by
  rcases List.nodup_append.mp hnd with ⟨_, _, hdisj⟩
  intro hmem
  exact hdisj hmem (List.mem_cons_self k0 ks2)

/-- The index of the middle key is the length of the left part. -/
theorem keyIdx_append_cons_self (ks1 ks2 : List String) (k0 : String)
    (hnot : ¬ k0 ∈ ks1) : keyIdx k0 (ks1 ++ k0 :: ks2) = ks1.length := by
  rw [keyIdx_append, if_neg hnot, keyIdx_cons_self]
  omega

/-- A key whose index is below the left part's length lies in the left
part. -/
theorem mem_left_of_keyIdx_lt (ks1 ks2 : List String) (k0 k : String)
    (h : keyIdx k (ks1 ++ k0 :: ks2) < ks1.length) : k ∈ ks1 := by
  by_cases hm : k ∈ ks1
  · exact hm
  · rw [keyIdx_append, if_neg hm] at h
    omega

/-- Stability of the modelled toposort: two pairs with no unsatisfied
dependencies at all (ready from the start) keep their relative input
order in the output — ties are broken by stable input order. -/
theorem toposortGo_stable_order (getter : Getter) (environ : Environ)
    (local_state : LocalState) :
    ∀ (fuel : Nat) (l out : List Pair),
      (keysOf l).Nodup →
      toposortGo getter environ local_state fuel l = some out →
      ∀ a ∈ l, ∀ b ∈ l,
        isReady getter environ local_state (keysOf l) a = true →
        isReady getter environ local_state (keysOf l) b = true →
        keyIdx (nodeKey a) (keysOf l) < keyIdx (nodeKey b) (keysOf l) →
        keyIdx (nodeKey a) (keysOf out) < keyIdx (nodeKey b) (keysOf out) := by
  intro fuel
  induction fuel with
  | zero =>
    intro l out hnd h a ha b hb hra hrb hlt
    cases l with
    | nil => simp at ha
    | cons x l0 => exact absurd h (by rw [toposortGo]; simp)
  | succ fuel ih =>
    intro l out hnd h a ha b hb hra hrb hlt
    cases l with
    | nil => simp at ha
    | cons x l0 =>
      rw [toposortGo] at h
      rcases hext : extractFirst (isReady getter environ local_state
          (keysOf (x :: l0))) (x :: l0) with _ | ⟨p, rest⟩
      · simp only [hext] at h
        exact absurd h (by simp)
      · simp only [hext] at h
        rcases hrec : toposortGo getter environ local_state fuel rest
            with _ | out'
        · simp only [hrec, Option.map_none'] at h
          exact absurd h (by simp)
        · simp only [hrec, Option.map_some'] at h
          have hout : out = p :: out' := by
            simpa using h.symm
          subst hout
          obtain ⟨l1, l2, hl, hrest, hcp, hl1⟩ :=
            extractFirst_spec _ _ p rest hext
          have hpmem : p ∈ x :: l0 := by
            rw [hl]
            exact List.mem_append.mpr (Or.inr (List.mem_cons_self p l2))
          have hbne : nodeKey a ≠ nodeKey b := by
            intro he
            rw [he] at hlt
            omega
          by_cases hap : nodeKey a = nodeKey p
          · show keyIdx (nodeKey a) (nodeKey p :: keysOf out') <
              keyIdx (nodeKey b) (nodeKey p :: keysOf out')
            rw [← hap, keyIdx_cons_self,
              keyIdx_cons_ne (nodeKey a) (nodeKey b) (keysOf out') hbne]
            omega
          · by_cases hbp : nodeKey b = nodeKey p
            · have hkeys : keysOf (x :: l0) =
                  keysOf l1 ++ nodeKey p :: keysOf l2 := by
                rw [hl, keysOf_append_cons]
              have hnot : ¬ nodeKey p ∈ keysOf l1 :=
                not_mem_left_of_nodup_append_cons (keysOf l1) (keysOf l2)
                  (nodeKey p) (hkeys ▸ hnd)
              have hidxb : keyIdx (nodeKey b) (keysOf (x :: l0)) =
                  (keysOf l1).length := by
                rw [hbp, hkeys]
                exact keyIdx_append_cons_self (keysOf l1) (keysOf l2)
                  (nodeKey p) hnot
              have hamem : nodeKey a ∈ keysOf l1 := by
                refine mem_left_of_keyIdx_lt (keysOf l1) (keysOf l2)
                  (nodeKey p) (nodeKey a) ?_
                rw [← hkeys]
                rw [hidxb] at hlt
                exact hlt
              rw [keysOf] at hamem
              obtain ⟨q, hq, hqa⟩ := List.mem_map.mp hamem
              have hq2 : q ∈ x :: l0 := by
                rw [hl]
                exact List.mem_append.mpr (Or.inl hq)
              have hqa2 : q = a :=
                nodeKey_inj_of_nodup (x :: l0) hnd q hq2 a ha hqa
              have hcheck := hl1 q hq
              rw [hqa2] at hcheck
              rw [hra] at hcheck
              exact absurd hcheck (by simp)
            · have ha2 : a ∈ rest := by
                rw [hrest]
                exact mem_rest_of_ne_key l1 l2 p a (hl ▸ ha) hap
              have hb2 : b ∈ rest := by
                rw [hrest]
                exact mem_rest_of_ne_key l1 l2 p b (hl ▸ hb) hbp
              have hnd2 : (keysOf rest).Nodup := by
                rw [hrest]
                exact nodup_keys_of_extract l1 p l2 (hl ▸ hnd)
              have hsub : ∀ d, d ∈ keysOf rest → d ∈ keysOf (x :: l0) := by
                intro d hd
                rw [hrest, keysOf_append] at hd
                rw [hl, keysOf_append_cons]
                rcases List.mem_append.mp hd with h1 | h2
                · exact List.mem_append.mpr (Or.inl h1)
                · exact List.mem_append.mpr
                    (Or.inr (List.mem_cons_of_mem _ h2))
              have hra2 := isReady_mono getter environ local_state
                (keysOf (x :: l0)) (keysOf rest) a hsub hra
              have hrb2 := isReady_mono getter environ local_state
                (keysOf (x :: l0)) (keysOf rest) b hsub hrb
              have hlt2 : keyIdx (nodeKey a) (keysOf rest) <
                  keyIdx (nodeKey b) (keysOf rest) := by
                rw [hrest, keysOf_append]
                refine keyIdx_erase_middle (nodeKey a) (nodeKey b) (nodeKey p)
                  (keysOf l1) (keysOf l2) hap hbp ?_
                rw [← keysOf_append_cons, ← hl]
                exact hlt
              have hres := ih rest out' hnd2 hrec a ha2 b hb2 hra2 hrb2 hlt2
              show keyIdx (nodeKey a) (nodeKey p :: keysOf out') <
                keyIdx (nodeKey b) (nodeKey p :: keysOf out')
              rw [keyIdx_cons_ne (nodeKey p) (nodeKey a) (keysOf out')
                  (fun he => hap he.symm),
                keyIdx_cons_ne (nodeKey p) (nodeKey b) (keysOf out')
                  (fun he => hbp he.symm)]
              omega

/-- C2: spec-modelled `_sort_requirements_and_providers` is
topologically correct and stable.  For every sorted acyclic input (a
successful sort) with unique requirement keys: (1) for every edge A→B —
a provider of A reports the variable supplied by B's requirement as
missing and that variable is not already in the environment — B's
position in the output strictly precedes A's; (2) independent pairs
(those with no unsatisfied dependencies at all) keep their stable input
order. -/
theorem sort_topological_and_stable (getter : Getter) (environ : Environ)
    (local_state : LocalState) (input out : List Pair)
    (hnd : (keysOf input).Nodup)
    (hsort : _sort_requirements_and_providers environ local_state input getter =
      some out) :
    (∀ a ∈ input, ∀ b ∈ input,
      nodeKey b ∈ depKeys getter environ local_state a →
      envMem environ (nodeKey b) = false →
      keyIdx (nodeKey b) (keysOf out) < keyIdx (nodeKey a) (keysOf out)) ∧
    (∀ a ∈ input, ∀ b ∈ input,
      isReady getter environ local_state (keysOf input) a = true →
      isReady getter environ local_state (keysOf input) b = true →
      keyIdx (nodeKey a) (keysOf input) < keyIdx (nodeKey b) (keysOf input) →
      keyIdx (nodeKey a) (keysOf out) < keyIdx (nodeKey b) (keysOf out)) := by
  rw [_sort_requirements_and_providers, toposort_from_dependency_info] at hsort
  exact ⟨toposortGo_edge_order getter environ local_state input.length input
      out hnd hsort,
    toposortGo_stable_order getter environ local_state input.length input
      out hnd hsort⟩

/-- Witness for C2 at a two-node graph where `A` needs the variable `B`
supplies: the sort puts `B` first. -/
theorem sort_topological_and_stable_witness :
    (keysOf [(reqA, [provNeedsB]), (reqB, [pNop])]).Nodup ∧
    _sort_requirements_and_providers [] [] [(reqA, [provNeedsB]), (reqB, [pNop])]
        getMissingToProvide = some [(reqB, [pNop]), (reqA, [provNeedsB])] ∧
    keyIdx (nodeKey (reqB, [pNop]))
        (keysOf [(reqB, [pNop]), (reqA, [provNeedsB])]) <
      keyIdx (nodeKey (reqA, [provNeedsB]))
        (keysOf [(reqB, [pNop]), (reqA, [provNeedsB])]) :=
  ⟨by decide, rfl,
    (sort_topological_and_stable getMissingToProvide [] []
        [(reqA, [provNeedsB]), (reqB, [pNop])]
        [(reqB, [pNop]), (reqA, [provNeedsB])] (by decide) rfl).1
      (reqA, [provNeedsB]) (List.mem_cons_self _ _)
      (reqB, [pNop]) (List.mem_cons_of_mem _ (List.mem_cons_self _ _))
      (by decide) rfl⟩
